import Mathlib

/-!
Verification development for the data-cleaning core of the
`n8n-nodes-flowengine` repository (`src/nodes/DataCleaner/utils.ts` and the
DataCleaner node handlers).

Modelling conventions:
* JavaScript strings are modelled by Lean `String` / `List Char`; all inputs
  exercised concretely are ASCII, and `toLowerCase`/`toUpperCase`/`trim` are
  modelled by `Char.toLower` / `Char.toUpper` / `String.trim` (ASCII-faithful).
* JavaScript numbers are modelled by `ℚ`; every arithmetic operation the
  similarity pipeline performs (addition, division by small integers,
  comparison) is exact.
* `i - w` on JS numbers clamped with `Math.max(0, ·)` is modelled by natural
  subtraction, which has the same clamping behaviour.
-/

namespace DataCleaner

/-- Model of JavaScript `String.prototype.toLowerCase` (ASCII-faithful). -/
def jsToLower (s : String) : String := String.mk (s.toList.map Char.toLower)

/-- Model of JavaScript `String.prototype.toUpperCase` (ASCII-faithful). -/
def jsToUpper (s : String) : String := String.mk (s.toList.map Char.toUpper)

/-- Drop leading and trailing whitespace from a character list. -/
def trimList (cs : List Char) : List Char :=
  ((cs.dropWhile Char.isWhitespace).reverse.dropWhile Char.isWhitespace).reverse

/-- Model of JavaScript `String.prototype.trim` (drops leading and trailing
whitespace). -/
def jsTrim (s : String) : String := String.mk (trimList s.toList)

/-- Split a character list on a separator character; like JavaScript
`split(sep)`, empty chunks are kept and the empty string yields `[""]`. -/
def splitOnCharAux (sep : Char) : List Char → List Char → List String
  | [], acc => [String.mk acc.reverse]
  | c :: rest, acc =>
      if c = sep then String.mk acc.reverse :: splitOnCharAux sep rest []
      else splitOnCharAux sep rest (c :: acc)

/-- Model of JavaScript `String.prototype.split` with a single-character
separator. -/
def splitOnChar (sep : Char) (s : String) : List String :=
  splitOnCharAux sep s.toList []

/-- Whether a string starts with the character `+`. -/
def startsWithPlus (s : String) : Bool :=
  match s.toList with
  | c :: _ => c = '+'
  | [] => false

/-- Model of JavaScript `String.prototype.startsWith`. -/
def strStartsWith (s pre : String) : Bool := pre.toList.isPrefixOf s.toList

/-! ### Levenshtein distance (`levenshteinDistance` in utils.ts)

The source computes the distance with a rolling-row dynamic program:
`previousRow` starts as `[0, 1, …, |shorter|]` and for each character of
`longer` a new row is produced with
`currentRow[j] = min(currentRow[j-1]+1, previousRow[j]+1, previousRow[j-1]+cost)`.
`levGo` is the inner `j` loop (carrying `diag = previousRow[j-1]` and
`left = currentRow[j-1]`), `levRowsAux` is the outer `i` loop. -/

/-- Inner loop of the rolling-row DP: walk the remaining characters of
`shorter` together with the tail of the previous row, emitting the new row
entries `currentRow[j]` for `j ≥ 1`. -/
def levGo (lc : Char) : List Char → List ℕ → ℕ → ℕ → List ℕ
  | c :: cs, pj :: prest, diag, left =>
      let cost : ℕ := if lc = c then 0 else 1
      let cur := min (left + 1) (min (pj + 1) (diag + cost))
      cur :: levGo lc cs prest pj cur
  | _, _, _, _ => []

/-- One outer-loop step: `currentRow[0] = i`, then the inner loop. -/
def levNextRow (shorter : List Char) (lc : Char) (i : ℕ) (prev : List ℕ) : List ℕ :=
  match prev with
  | p0 :: prest => i :: levGo lc shorter prest p0 i
  | [] => [i]

/-- The outer loop of the DP after processing the first `k` characters of
`longer`; `levRowsAux longer shorter 0` is the initial row `[0, …, |shorter|]`. -/
def levRowsAux (longer shorter : List Char) : ℕ → List ℕ
  | 0 => List.range (shorter.length + 1)
  | i + 1 => levNextRow shorter (longer.getD i ' ') (i + 1) (levRowsAux longer shorter i)

/-- The full DP value: `previousRow[shorter.length]` after the outer loop. -/
def levDP (longer shorter : List Char) : ℕ :=
  (levRowsAux longer shorter longer.length).getD shorter.length 0

/-- Textbook prefix-indexed Levenshtein recurrence, used as the specification
the rolling-row DP is proved against: `levIdx l s i j` is the edit distance
between the first `i` characters of `l` and the first `j` characters of `s`. -/
def levIdx (l s : List Char) : ℕ → ℕ → ℕ
  | 0, j => j
  | i + 1, 0 => i + 1
  | i + 1, j + 1 =>
      let cost : ℕ := if l.getD i ' ' = s.getD j ' ' then 0 else 1
      min (levIdx l s (i + 1) j + 1) (min (levIdx l s i (j + 1) + 1) (levIdx l s i j + cost))

/-- The `levenshteinDistance` function of utils.ts: normalize (lower-case,
trim), early exits, then the rolling-row DP on (longer, shorter). -/
def levenshteinDistance (str1 str2 : String) : ℕ :=
  let s1 := jsTrim (jsToLower str1)
  let s2 := jsTrim (jsToLower str2)
  if s1 = s2 then 0
  else if s1.length = 0 then s2.length
  else if s2.length = 0 then s1.length
  else if s1.length ≤ s2.length then levDP s2.toList s1.toList
  else levDP s1.toList s2.toList

/-- The `levenshteinSimilarity` function of utils.ts. Note that the
denominator uses the lengths of the original (un-normalized) strings. -/
def levenshteinSimilarity (str1 str2 : String) : ℚ :=
  if str1 = "" ∧ str2 = "" then 1
  else if str1 = "" ∨ str2 = "" then 0
  else
    let d := levenshteinDistance str1 str2
    let maxLength := max str1.length str2.length
    if maxLength = 0 then 1 else 1 - (d : ℚ) / (maxLength : ℚ)

/-! ### Jaro and Jaro-Winkler similarity (`jaroSimilarity`,
`jaroWinklerSimilarity` in utils.ts) -/

/-- The match window size: `Math.max(0, Math.floor(max(|s1|,|s2|)/2) - 1)`;
natural subtraction models the clamp to 0. -/
def matchWindowSize (n1 n2 : ℕ) : ℕ := max n1 n2 / 2 - 1

/-- The inner `j` scan of the matching loop: the first index
`j ∈ [start, stop)` that is not yet matched in `s2` and whose character equals
`c`. -/
def scanJ (c : Char) (s2 : List Char) (m2 : List Bool) (start stop : ℕ) : Option ℕ :=
  (List.range' start (stop - start)).find? (fun j => !(m2.getD j true) && (s2.getD j ' ' == c))

/-- The matching loop of `jaroSimilarity` after processing indices
`i = 0, …, k-1` of `s1`: returns the pair of boolean match arrays
(`s1Matches`, `s2Matches`). -/
def jaroMatchAux (s1 s2 : List Char) (w : ℕ) : ℕ → List Bool × List Bool
  | 0 => (List.replicate s1.length false, List.replicate s2.length false)
  | i + 1 =>
    let st := jaroMatchAux s1 s2 w i
    match scanJ (s1.getD i ' ') s2 st.2 (i - w) (min (i + w + 1) s2.length) with
    | some j => (st.1.set i true, st.2.set j true)
    | none => st

/-- The complete matching loop over all of `s1`. -/
def jaroMatches (s1 s2 : List Char) (w : ℕ) : List Bool × List Bool :=
  jaroMatchAux s1 s2 w s1.length

/-- The characters of `s` at matched positions, in order. -/
def matchedChars (s : List Char) (m : List Bool) : List Char :=
  ((s.zip m).filter (fun p => p.2)).map (fun p => p.1)

/-- Number of positions where two character lists disagree. The transposition
loop of the source pairs the k-th matched character of `s1` with the k-th
matched character of `s2` and counts disagreements; `mismatchCount` applied to
the two matched-character lists is exactly that count. -/
def mismatchCount : List Char → List Char → ℕ
  | a :: as, b :: bs => (if a = b then 0 else 1) + mismatchCount as bs
  | _, _ => 0

/-- The `jaroSimilarity` function of utils.ts. -/
def jaroSimilarity (str1 str2 : String) : ℚ :=
  let s1 := (jsTrim (jsToLower str1)).toList
  let s2 := (jsTrim (jsToLower str2)).toList
  if s1 = s2 then 1
  else if s1.length = 0 ∨ s2.length = 0 then 0
  else
    let w := matchWindowSize s1.length s2.length
    let st := jaroMatches s1 s2 w
    let m := st.2.count true
    if m = 0 then 0
    else
      let t := mismatchCount (matchedChars s1 st.1) (matchedChars s2 st.2)
      ((m : ℚ) / s1.length + (m : ℚ) / s2.length + ((m : ℚ) - (t : ℚ) / 2) / m) / 3

/-- Common-prefix length of two character lists, capped by `bound`. The source
caps the loop at `min(4, min(|s1|, |s2|))`; running out of characters and
reaching the cap stop the loop in the same way. -/
def prefixLen : ℕ → List Char → List Char → ℕ
  | b + 1, x :: xs, y :: ys => if x = y then prefixLen b xs ys + 1 else 0
  | _, _, _ => 0

/-- The `jaroWinklerSimilarity` function of utils.ts; `pScale` is the
`prefixScale` parameter (default 0.1 at call sites). -/
def jaroWinklerSimilarity (str1 str2 : String) (pScale : ℚ) : ℚ :=
  let jaroSim := jaroSimilarity str1 str2
  if jaroSim = 0 then 0
  else
    let s1 := (jsTrim (jsToLower str1)).toList
    let s2 := (jsTrim (jsToLower str2)).toList
    let pl := prefixLen (min 4 (min s1.length s2.length)) s1 s2
    let boundedScale := min pScale (1 / 4 : ℚ)
    jaroSim + (pl : ℚ) * boundedScale * (1 - jaroSim)

/-- The `fuzzyMatch` dispatcher of utils.ts: Jaro-Winkler (with the default
prefix scale 0.1) when both strings are shorter than 10 characters, otherwise
Levenshtein similarity. -/
def fuzzyMatch (str1 str2 : String) : ℚ :=
  if str1.length < 10 ∧ str2.length < 10 then jaroWinklerSimilarity str1 str2 (1 / 10)
  else levenshteinSimilarity str1 str2

/-! ### JSON-like values and records

Items flowing through the node are JSON trees (`Record<string, unknown>`).
Mappings are association lists in insertion order, matching JavaScript
object-key enumeration order. JavaScript `Date` objects do not occur in JSON
item data and are not modelled. -/

/-- A JSON-like value. -/
inductive Value where
  | null : Value
  | bool : Bool → Value
  | num : ℚ → Value
  | str : String → Value
  | arr : List Value → Value
  | obj : List (String × Value) → Value

/-- A record (`Record<string, unknown>`): the field list of a JSON object. -/
abbrev RecordV := List (String × Value)

/-- JavaScript object property read: the value at the first binding of `k`,
or `none` (undefined) when the key is absent. -/
def objGet (fs : RecordV) (k : String) : Option Value :=
  match fs.find? (fun p => p.1 == k) with
  | some p => some p.2
  | none => none

/-- JavaScript object property write: overwrite the existing binding in place
(preserving key order) or append a new one. -/
def objSet (fs : RecordV) (k : String) (v : Value) : RecordV :=
  match fs with
  | [] => [(k, v)]
  | (k', v') :: rest => if k' = k then (k, v) :: rest else (k', v') :: objSet rest k v

/-- The `isObject` type guard of utils.ts: a non-null, non-array object.
In JavaScript `typeof null = 'object'` and arrays are objects; both are
rejected explicitly, and every other `Value` constructor has a different
`typeof`. -/
def isObject : Value → Bool
  | .obj _ => true
  | _ => false

/-- Join strings with comma separators, as JavaScript array
stringification does. -/
def commaJoin : List String → String
  | [] => ""
  | [x] => x
  | x :: y :: rest => x ++ "," ++ commaJoin (y :: rest)

mutual
/-- JavaScript `String(v)` coercion, as used on field values by the
deduplicator. Strings, booleans and containers follow JavaScript exactly;
number formatting is approximated by `ℚ`'s representation (no claim in this
development depends on stringifying a numeric field). -/
def jsString : Value → String
  | .null => "null"
  | .bool b => if b then "true" else "false"
  | .num q => toString q
  | .str s => s
  | .arr xs => commaJoin (jsStringList xs)
  | .obj _ => "[object Object]"

/-- Element-wise `String` coercion of an array value. -/
def jsStringList : List Value → List String
  | [] => []
  | x :: xs => jsString x :: jsStringList xs
end

/-- The string-coercion of `items[i][field] ?? ''` in `findFuzzyDuplicates`:
an absent key (undefined) and `null` both collapse to `""` via `?? ''`. -/
def fieldString (r : RecordV) (f : String) : String :=
  match objGet r f with
  | none => ""
  | some .null => ""
  | some v => jsString v

/-! ### Nested access (`getNestedProperty`, `setNestedProperty`) -/

/-- The walk of `getNestedProperty`: at each remaining path segment the
current value must be a non-null non-array object (an absent key yields
undefined, modelled by `none`, which fails the `isObject` check at the next
iteration). -/
def walkPath : List String → Option Value → Option Value
  | [], c => c
  | p :: rest, c =>
      match c with
      | some (.obj fs) => walkPath rest (objGet fs p)
      | _ => none

/-- The `getNestedProperty` function of utils.ts. The embedding is a total
function: the source never dereferences a value without first checking
`isObject`, so no step of the walk can throw. -/
def getNestedProperty (obj : Value) (path : String) : Option Value :=
  if !isObject obj || path = "" then none
  else walkPath (splitOnChar '.' path) (some obj)

/-- The walk of `setNestedProperty`: create (or overwrite with) an empty
object at any intermediate segment whose current value is not an object, then
assign at the final segment. -/
def setParts : RecordV → List String → Value → RecordV
  | fs, [], _ => fs
  | fs, [p], v => objSet fs p v
  | fs, p :: rest, v =>
      let child : RecordV :=
        match objGet fs p with
        | some (.obj cfs) => cfs
        | _ => []
      objSet fs p (.obj (setParts child rest v))

/-- The `setNestedProperty` function of utils.ts (functional rendering of the
in-place mutation: the returned record is the mutated root). -/
def setNestedProperty (obj : RecordV) (path : String) (v : Value) : RecordV :=
  if path = "" then obj else setParts obj (splitOnChar '.' path) v

/-! ### Case converters (`toTitleCase`, `toSnakeCase`, `toCamelCase`) -/

/-- The fixed lowercase exception list of `toTitleCase` (articles,
prepositions, conjunctions). -/
def titleExceptions : List String :=
  ["a", "an", "the", "and", "but", "or", "for", "nor", "so", "yet",
   "at", "by", "in", "of", "on", "to", "up", "as", "is", "it"]

/-- The fixed uppercase exception list of `toTitleCase` (acronyms etc.). -/
def titleUppercaseExceptions : List String :=
  ["usa", "uk", "uae", "nyc", "la", "dc", "ibm", "nasa", "fbi", "cia",
   "ceo", "cfo", "cto", "coo", "vp", "svp", "evp", "md", "phd", "llc",
   "inc", "ltd", "ii", "iii", "iv", "vi", "vii", "viii", "ix", "xi"]

/-- Model of `str.split(/(\s+)/)`: maximal runs of whitespace become delimiter
chunks kept in the output, and the output always starts and ends with a
(possibly empty) non-whitespace chunk, exactly as the JavaScript capture-group
split behaves (so `" a"` splits into `["", " ", "a"]` and `""` into `[""]`). -/
def splitKeepWs (cs : List Char) : List String :=
  let runs := (cs.splitBy (fun a b => a.isWhitespace == b.isWhitespace)).map
    (fun g => String.mk g)
  let runs := match runs with
    | [] => [""]
    | g :: _ => if g.toList.any Char.isWhitespace then "" :: runs else runs
  match runs.getLast? with
  | some g => if g.toList.any Char.isWhitespace then runs ++ [""] else runs
  | none => runs

/-- The per-token transform of `toTitleCase` (`word` is a chunk of the split;
whitespace chunks pass through; otherwise the two exception sets and the
default capitalization rule apply). -/
def titleWord (word : String) (idx total : ℕ) : String :=
  if word ≠ "" ∧ word.toList.all Char.isWhitespace then word
  else
    let lowerWord := jsToLower word
    if lowerWord ∈ titleUppercaseExceptions then jsToUpper word
    else
      let isFirstOrLast := idx = 0 ∨ idx = total - 1
      if ¬isFirstOrLast ∧ lowerWord ∈ titleExceptions then lowerWord
      else
        match word.toList with
        | [] => ""
        | c :: rest => String.mk (Char.toUpper c :: (String.mk rest |> jsToLower).toList)

/-- The `toTitleCase` function of utils.ts. -/
def toTitleCase (str : String) : String :=
  if str = "" then ""
  else
    let chunks := splitKeepWs (jsToLower str).toList
    String.join (chunks.enum.map (fun p => titleWord p.2 p.1 chunks.length))

/-- Character-wise model of the global regex replace
`([a-z])([A-Z]) → $1_$2`: insert an underscore between a lowercase letter and
the uppercase letter following it. -/
def snakeRule1 : List Char → List Char
  | a :: b :: rest =>
      if a.isLower ∧ b.isUpper then a :: '_' :: snakeRule1 (b :: rest)
      else a :: snakeRule1 (b :: rest)
  | cs => cs

/-- Character-wise model of the global regex replace
`([A-Z]+)([A-Z][a-z]) → $1_$2`: insert an underscore before the last uppercase
letter of an uppercase run that is followed by a lowercase letter. -/
def snakeRule2 : List Char → List Char
  | a :: b :: c :: rest =>
      if a.isUpper ∧ b.isUpper ∧ c.isLower then a :: '_' :: snakeRule2 (b :: c :: rest)
      else a :: snakeRule2 (b :: c :: rest)
  | cs => cs

/-- Model of replacing every run matching `[\s\-\.]+` with a single
underscore (the boolean flag records being inside such a run). -/
def snakeSeparators : List Char → Bool → List Char
  | [], _ => []
  | c :: rest, inRun =>
      if c.isWhitespace ∨ c = '-' ∨ c = '.' then
        if inRun then snakeSeparators rest true else '_' :: snakeSeparators rest true
      else c :: snakeSeparators rest false

/-- Model of collapsing `_+` runs to a single underscore (the boolean flag
records that the previous kept character was an underscore). -/
def collapseUnderscores : List Char → Bool → List Char
  | [], _ => []
  | c :: rest, prevUnd =>
      if c = '_' then
        if prevUnd then collapseUnderscores rest true
        else '_' :: collapseUnderscores rest true
      else c :: collapseUnderscores rest false

/-- The `toSnakeCase` function of utils.ts: camelCase boundaries, separator
runs to `_`, strip other characters, lowercase, trim `_`, collapse `_+`. -/
def toSnakeCase (str : String) : String :=
  if str = "" then ""
  else
    let cs := str.toList
    let cs := snakeRule1 cs
    let cs := snakeRule2 cs
    let cs := snakeSeparators cs false
    let cs := cs.filter (fun c => c.isAlphanum ∨ c = '_')
    let cs := cs.map Char.toLower
    let cs := (cs.dropWhile (fun c => c = '_')).reverse.dropWhile (fun c => c = '_') |>.reverse
    String.mk (collapseUnderscores cs false)

/-- Capitalize the first character and keep the rest
(`word.charAt(0).toUpperCase() + word.slice(1)`). -/
def capitalizeFirst (w : String) : String :=
  match w.toList with
  | [] => ""
  | c :: rest => String.mk (Char.toUpper c :: rest)

/-- The `toCamelCase` function of utils.ts: separators to spaces, trim,
lowercase, split on spaces, drop empty words, capitalize every word but the
first. -/
def toCamelCase (str : String) : String :=
  if str = "" then ""
  else
    let cs := str.toList.map (fun c =>
      if c = '_' ∨ c = '-' ∨ c = '.' ∨ c.isWhitespace then ' ' else c)
    let s := jsToLower (jsTrim (String.mk cs))
    let words := (splitOnChar ' ' s).filter (fun w => w.length > 0)
    String.join (words.enum.map (fun p => if p.1 = 0 then p.2 else capitalizeFirst p.2))

/-- Per-token rule of `toTitleCase` as the specification states it: delimiter
chunks pass through; acronym-list words are fully uppercased regardless of
position; minor words are forced lowercase unless first or last token;
otherwise the first character is capitalized. Stated for comparison with the
source-derived `titleWord`. -/
def titleTokenSpec (word : String) (idx total : ℕ) : String :=
  if word ≠ "" ∧ word.toList.all Char.isWhitespace then word
  else if word ∈ titleUppercaseExceptions then jsToUpper word
  else if ¬(idx = 0 ∨ idx = total - 1) ∧ word ∈ titleExceptions then word
  else capitalizeFirst word

/-- Title casing as the specification words it: case-fold, split keeping
delimiters, apply `titleTokenSpec` per token. -/
def titleCaseSpec (str : String) : String :=
  if str = "" then ""
  else
    let chunks := splitKeepWs (jsToLower str).toList
    String.join (chunks.enum.map (fun p => titleTokenSpec p.2 p.1 chunks.length))

/-! ### Phone-number cleaning (`cleanPhoneNumber`) -/

/-- The `cleanPhoneNumber` function of utils.ts (the `typeof` guard is
vacuous for a `String` input; `!phone` selects the empty string). -/
def cleanPhoneNumber (phone : String) (defaultCountryCode : String) : String :=
  if phone = "" then ""
  else
    let hasPlus := startsWithPlus (jsTrim phone)
    let digitsOnly := String.mk (phone.toList.filter Char.isDigit)
    if digitsOnly.length = 0 then phone
    else if digitsOnly.length > 15 then phone
    else if hasPlus then "+" ++ digitsOnly
    else if digitsOnly.length = 11 ∧ strStartsWith digitsOnly "1" then "+" ++ digitsOnly
    else if digitsOnly.length = 10 then "+" ++ defaultCountryCode ++ digitsOnly
    else if digitsOnly.length = 11 ∧ strStartsWith digitsOnly "0" then
      "+44" ++ String.mk (digitsOnly.toList.drop 1)
    else if digitsOnly.length = 12 ∧ strStartsWith digitsOnly "44" then "+" ++ digitsOnly
    else if 7 ≤ digitsOnly.length ∧ digitsOnly.length ≤ 10 then
      "+" ++ defaultCountryCode ++ digitsOnly
    else "+" ++ digitsOnly

/-! ### Key transformation (`transformObjectKeys`) -/

/-- The target case format of `transformObjectKeys`. -/
inductive CaseType where
  | snake_case : CaseType
  | camelCase : CaseType
deriving DecidableEq

/-- The key transformer selected by the case format (`snake_case → toSnakeCase`,
`camelCase → toCamelCase`). -/
def keyTransformer : CaseType → String → String
  | .snake_case => toSnakeCase
  | .camelCase => toCamelCase

mutual
/-- The `transformObjectKeys` function of utils.ts: rewrite every key of every
nested object with the selected converter; arrays map element-wise; scalars
and null pass through. (`Date` values do not occur in the JSON value model.) -/
def transformObjectKeys (v : Value) (caseType : CaseType) : Value :=
  match v with
  | .null => .null
  | .arr xs => .arr (transformKeysList xs caseType)
  | .obj fs => .obj (transformKeysFields fs caseType)
  | other => other

/-- Element-wise key transformation of an array value. -/
def transformKeysList : List Value → CaseType → List Value
  | [], _ => []
  | x :: xs, ct => transformObjectKeys x ct :: transformKeysList xs ct

/-- Entry-wise key transformation of an object's field list. -/
def transformKeysFields : List (String × Value) → CaseType → List (String × Value)
  | [], _ => []
  | (k, v) :: fs, ct => (keyTransformer ct k, transformObjectKeys v ct) :: transformKeysFields fs ct
end

/-! ### Fuzzy deduplication (`findFuzzyDuplicates`, `deduplicateFuzzy`) -/

/-- The `DuplicateGroup` interface of utils.ts. -/
structure DuplicateGroup where
  keepIndex : ℕ
  duplicateIndices : List ℕ
  similarityScores : List ℚ
deriving DecidableEq

/-- The per-pair field loop of `findFuzzyDuplicates`: accumulate
`totalSimilarity` and `fieldCount` over the configured fields, skipping fields
where both string-coerced values are empty, then average (0 when no field
contributed). -/
def pairScore (fields : List String) (r1 r2 : RecordV) : ℚ :=
  let acc := fields.foldl
    (fun (acc : ℚ × ℕ) field =>
      let value1 := fieldString r1 field
      let value2 := fieldString r2 field
      if value1 = "" ∧ value2 = "" then acc
      else (acc.1 + fuzzyMatch value1 value2, acc.2 + 1))
    (0, 0)
  if acc.2 > 0 then acc.1 / (acc.2 : ℚ) else 0

/-- The fields that contribute to a pair's average: those where at least one
of the two string-coerced values is non-empty (spec-side rendering). -/
def contributingFields (fields : List String) (r1 r2 : RecordV) : List String :=
  fields.filter (fun f => ¬(fieldString r1 f = "" ∧ fieldString r2 f = ""))

/-- The pair score as the specification words it: the average of the
`fuzzyMatch` scores over the contributing fields, and 0 when no field
contributed. Stated for comparison with the source-derived `pairScore`. -/
def pairScoreSpec (fields : List String) (r1 r2 : RecordV) : ℚ :=
  let contrib := contributingFields fields r1 r2
  if contrib = [] then 0
  else (contrib.map (fun f => fuzzyMatch (fieldString r1 f) (fieldString r2 f))).sum /
    (contrib.length : ℚ)

/-- The inner `j` loop of `findFuzzyDuplicates` for a fixed keep index `i`:
scan the remaining indices, skip already-processed ones, and consume every
`j` whose average similarity meets the threshold. Returns the duplicate
indices, their scores, and the updated processed set. -/
def innerLoop (items : List RecordV) (fields : List String) (t : ℚ) (i : ℕ) :
    List ℕ → List ℕ → List ℕ × List ℚ × List ℕ
  | [], processed => ([], [], processed)
  | j :: rest, processed =>
      if j ∈ processed then innerLoop items fields t i rest processed
      else
        let s := pairScore fields (items.getD i []) (items.getD j [])
        if t ≤ s then
          let r := innerLoop items fields t i rest (processed ++ [j])
          (j :: r.1, s :: r.2.1, r.2.2)
        else innerLoop items fields t i rest processed

/-- The outer `i` loop of `findFuzzyDuplicates` over the remaining index list
(`idxs` is a suffix of `range items.length`, so the indices after the head are
exactly the inner-loop range `j = i+1, …`). -/
def findLoop (items : List RecordV) (fields : List String) (t : ℚ) :
    List ℕ → List ℕ → List DuplicateGroup
  | [], _ => []
  | i :: rest, processed =>
      if i ∈ processed then findLoop items fields t rest processed
      else
        let r := innerLoop items fields t i rest processed
        if r.1 ≠ [] then
          ⟨i, r.1, r.2.1⟩ :: findLoop items fields t rest r.2.2
        else findLoop items fields t rest r.2.2

/-- The `findFuzzyDuplicates` function of utils.ts. -/
def findFuzzyDuplicates (items : List RecordV) (fields : List String) (t : ℚ) :
    List DuplicateGroup :=
  findLoop items fields t (List.range items.length) []

/-- Result type of `deduplicateFuzzy`. -/
structure DedupResult where
  deduplicated : List RecordV
  removedCount : ℕ
  duplicateGroups : List DuplicateGroup

/-- The `deduplicateFuzzy` function of utils.ts: run `findFuzzyDuplicates`,
take the union of all duplicate indices (`indicesToRemove` is a `Set`, so the
count deduplicates), and filter them out of the original sequence. -/
def deduplicateFuzzy (items : List RecordV) (fields : List String) (t : ℚ) : DedupResult :=
  let duplicateGroups := findFuzzyDuplicates items fields t
  let indicesToRemove := (duplicateGroups.flatMap (fun g => g.duplicateIndices)).dedup
  let deduplicated :=
    (items.enum.filter (fun p => p.1 ∉ indicesToRemove)).map (fun p => p.2)
  ⟨deduplicated, indicesToRemove.length, duplicateGroups⟩

/-! ### DataCleaner node operation handlers

The `execute*` handlers live in the DataCleaner node file. Node parameters
are modelled as explicit arguments (one constant value per execution, the
ordinary configuration case); an execution either raises a
`NodeOperationError` (modelled by `Except.error` with the error message) or
returns the output items. -/

/-- The field-list parsing shared by `executeDeduplicateFuzzy` and
`executeSmartCapitalization`: split on commas, trim, drop empties. -/
def parseFields (raw : String) : List String :=
  ((splitOnChar ',' raw).map jsTrim).filter (fun f => f.length > 0)

/-- The `executeDeduplicateFuzzy` handler: validate the parsed field list and
the threshold, then deduplicate; optionally attach `_deduplicationInfo`
metadata to the first surviving item. -/
def executeDeduplicateFuzzy (items : List RecordV) (fieldsToCheckRaw : String)
    (fuzzyThreshold : ℚ) (outputDuplicateInfo : Bool) : Except String (List RecordV) :=
  let fieldsToCheck := parseFields fieldsToCheckRaw
  if fieldsToCheck.length = 0 then
    .error "At least one field must be specified for duplicate checking"
  else if fuzzyThreshold < 0 ∨ fuzzyThreshold > 1 then
    .error "Fuzzy threshold must be between 0.0 and 1.0"
  else
    let r := deduplicateFuzzy items fieldsToCheck fuzzyThreshold
    match r.deduplicated with
    | [] => .ok []
    | first :: rest =>
        if outputDuplicateInfo then
          .ok (objSet first "_deduplicationInfo" (.obj
            [("originalCount", .num items.length),
             ("deduplicatedCount", .num r.deduplicated.length),
             ("removedCount", .num r.removedCount),
             ("duplicateGroupsFound", .num r.duplicateGroups.length),
             ("fieldsChecked", .arr (fieldsToCheck.map Value.str)),
             ("thresholdUsed", .num fuzzyThreshold)]) :: rest)
        else .ok (first :: rest)

/-- The per-item body of `executeSmartCapitalization`: for each parsed field,
read the (possibly nested) value from the original item and, when it is a
string, write its title-cased form into the cloned item. -/
def capitalizeItem (fields : List String) (item : RecordV) : RecordV :=
  fields.foldl
    (fun newItem field =>
      match getNestedProperty (.obj item) field with
      | some (.str value) =>
          let capitalizedValue := toTitleCase value
          if field.toList.contains '.' then
            setNestedProperty newItem field (.str capitalizedValue)
          else objSet newItem field (.str capitalizedValue)
      | _ => newItem)
    item

/-- The `executeSmartCapitalization` handler. It performs no validation of
the parsed field list: an empty list simply leaves every item unchanged. -/
def executeSmartCapitalization (items : List RecordV) (fieldsRaw : String) :
    Except String (List RecordV) :=
  .ok (items.map (capitalizeItem (parseFields fieldsRaw)))

/-- The item loop of `executeCleanObjectKeys` (`i` is the current item
index, used in the error message). -/
def cleanKeysLoop : List Value → CaseType → ℕ → Except String (List Value)
  | [], _, _ => .ok []
  | item :: rest, fmt, i =>
      let transformedJson := transformObjectKeys item fmt
      if isObject transformedJson then
        match cleanKeysLoop rest fmt (i + 1) with
        | .ok tail => .ok (transformedJson :: tail)
        | .error e => .error e
      else
        .error ("Item " ++ toString i ++
          " did not produce a valid object after key transformation")

/-- The `executeCleanObjectKeys` handler: transform every item's keys,
raising when a transformed item is not a valid object. -/
def executeCleanObjectKeys (items : List Value) (fmt : CaseType) :
    Except String (List Value) :=
  cleanKeysLoop items fmt 0

/-! ### Concrete example data used by the claim instances -/

/-- Record A of the threshold-monotonicity example. -/
def recA : RecordV := [("f1", .str "abcde"), ("f2", .str "abcde")]

/-- Record B of the threshold-monotonicity example. -/
def recB : RecordV := [("f1", .str "vwxye"), ("f2", .str "vwxye")]

/-- Record C of the threshold-monotonicity example. -/
def recC : RecordV := [("f1", .str "vwxye"), ("f2", .str "")]

/-- Record D of the threshold-monotonicity example. -/
def recD : RecordV := [("f1", .str ""), ("f2", .str "vwxye")]

/-- The record list of the threshold-monotonicity example. -/
def dedupExItems : List RecordV := [recA, recB, recC, recD]

/-- The field list of the threshold-monotonicity example. -/
def dedupExFields : List String := ["f1", "f2"]

/-- Positions of character `c` in `s`, in increasing order. Used to analyse
the Jaro matching loop. -/
def posOf (c : Char) (s : List Char) : List ℕ :=
  (List.range s.length).filter (fun j => s.getD j ' ' = c)

/-- Tandem merge of two sorted position lists under window `w`: pairs the
next unmatched occurrence in `s1` with the first in-window unmatched
occurrence in `s2`, dropping occurrences that fall behind. Returns the list
of matched index pairs and the remaining (unconsumed) second list. This is
the per-character view of the Jaro matching loop. -/
def mergeSt (w : ℕ) : List ℕ → List ℕ → List (ℕ × ℕ) × List ℕ
  | [], J => ([], J)
  | _ :: _, [] => ([], [])
  | i :: I, j :: J =>
      if j + w < i then mergeSt w (i :: I) J
      else if i + w < j then mergeSt w I (j :: J)
      else
        let r := mergeSt w I J
        ((i, j) :: r.1, r.2)
termination_by I J => I.length + J.length

/-- The matched index pairs on character `c` after the Jaro matching loop has
processed positions `0, …, n-1` of `s1`. -/
def cPairs (s1 s2 : List Char) (w n : ℕ) (c : Char) : List (ℕ × ℕ) :=
  (mergeSt w ((posOf c s1).filter (fun i => i < n)) (posOf c s2)).1

/-- The yet-unconsumed occurrences of `c` in `s2` after the Jaro matching
loop has processed positions `0, …, n-1` of `s1`. -/
def cRem (s1 s2 : List Char) (w n : ℕ) (c : Char) : List ℕ :=
  (mergeSt w ((posOf c s1).filter (fun i => i < n)) (posOf c s2)).2

/-! ## Theorems -/

/-- Helper: for a two-record input, the removed count of `deduplicateFuzzy`
is 1 exactly when the pair's average similarity meets the threshold. -/
theorem removedCount_pair (a b : RecordV) (fields : List String) (t : ℚ) :
    (deduplicateFuzzy [a, b] fields t).removedCount =
      if t ≤ pairScore fields a b then 1 else 0 := by
  have hr : List.range 2 = [0, 1] := rfl
  by_cases h : t ≤ pairScore fields a b <;>
    simp [deduplicateFuzzy, findFuzzyDuplicates, hr, findLoop, innerLoop, h]

/-- Counterexample to C1: with records `recA recB recC recD` over fields
`f1, f2` and the valid threshold pair `t1 = 2/5 ≤ t2 = 1/2`, raising the
threshold increases `removedCount` from 1 to 2 (at the lower threshold
`recA` consumes `recB`; at the higher one `recB` stays and consumes both
`recC` and `recD`), so the monotonicity claim is false as stated. -/
theorem claim_C1_counterexample :
    ((0:ℚ) ≤ 2/5 ∧ (2/5:ℚ) ≤ 1/2 ∧ (1/2:ℚ) ≤ 1) ∧ dedupExFields ≠ [] ∧
    ¬ ((deduplicateFuzzy dedupExItems dedupExFields (1/2)).removedCount ≤
       (deduplicateFuzzy dedupExItems dedupExFields (2/5)).removedCount) := by
  refine ⟨by norm_num, by decide, ?_⟩
  have h2 : (deduplicateFuzzy dedupExItems dedupExFields (1/2)).removedCount = 2 := by
    with_unfolding_all decide
  have h1 : (deduplicateFuzzy dedupExItems dedupExFields (2/5)).removedCount = 1 := by
    with_unfolding_all decide
  omega

/-- Amended C1: raising the threshold is monotone at the level the algorithm
actually guarantees — the per-pair duplicate test (any pair meeting the higher
threshold also meets the lower one), and hence the removed count for inputs of
at most two records; for three or more records the greedy grouping can
increase `removedCount` (see the counterexample). -/
theorem claim_C1_amended :
    (∀ (items : List RecordV) (fields : List String) (t1 t2 : ℚ),
        items.length ≤ 2 → 0 ≤ t1 → t1 ≤ t2 → t2 ≤ 1 →
        (deduplicateFuzzy items fields t2).removedCount ≤
          (deduplicateFuzzy items fields t1).removedCount) ∧
    (∀ (fields : List String) (r1 r2 : RecordV) (t1 t2 : ℚ),
        t1 ≤ t2 → t2 ≤ pairScore fields r1 r2 → t1 ≤ pairScore fields r1 r2) := by
  constructor
  · intro items fields t1 t2 hlen h0 h12 h21
    match items with
    | [] => simp [deduplicateFuzzy, findFuzzyDuplicates, findLoop]
    | [a] =>
        simp [deduplicateFuzzy, findFuzzyDuplicates, findLoop, innerLoop,
          (rfl : List.range 1 = [0])]
    | [a, b] =>
        rw [removedCount_pair, removedCount_pair]
        by_cases hs2 : t2 ≤ pairScore fields a b
        · rw [if_pos hs2, if_pos (le_trans h12 hs2)]
        · rw [if_neg hs2]
          split <;> omega
    | a :: b :: c :: rest => simp at hlen
  · intro fields r1 r2 t1 t2 h12 h2
    exact le_trans h12 h2

/-- Witness for the amended C1 at a concrete two-record input and the
threshold pair 2/5 ≤ 1/2. -/
theorem claim_C1_amended_witness :
    (deduplicateFuzzy [recA, recB] dedupExFields (1/2)).removedCount ≤
      (deduplicateFuzzy [recA, recB] dedupExFields (2/5)).removedCount :=
  claim_C1_amended.1 [recA, recB] dedupExFields (2/5) (1/2) (by decide) (by norm_num)
    (by norm_num) (by norm_num)

/-- Counterexample to C2: the input `"+1 234567890123456"` has a trimmed
leading `+` and 16 digits; the length check fires before the `+` branch, so
the original string is returned rather than `+` followed by its digits. -/
theorem claim_C2_counterexample :
    startsWithPlus (jsTrim "+1 234567890123456") = true ∧
    String.mk (("+1 234567890123456").toList.filter Char.isDigit) = "1234567890123456" ∧
    cleanPhoneNumber "+1 234567890123456" "1" = "+1 234567890123456" ∧
    cleanPhoneNumber "+1 234567890123456" "1" ≠ "+1234567890123456" := by decide

/-- Amended C2: for a trimmed `+`-prefixed input containing at least one
digit, `cleanPhoneNumber` returns `+` followed by exactly the input's digits
when the digit count is at most 15, and returns the input unchanged when the
digit count exceeds 15 (the length check precedes the `+`-prefix rule). -/
theorem claim_C2_amended (phone cc : String)
    (hplus : startsWithPlus (jsTrim phone) = true)
    (hsome : 1 ≤ (phone.toList.filter Char.isDigit).length) :
    ((phone.toList.filter Char.isDigit).length ≤ 15 →
        cleanPhoneNumber phone cc = "+" ++ String.mk (phone.toList.filter Char.isDigit)) ∧
    (15 < (phone.toList.filter Char.isDigit).length → cleanPhoneNumber phone cc = phone) := by
  have hne : phone ≠ "" := by
    intro h
    subst h
    simp [List.filter] at hsome
  have hlen : (String.mk (phone.toList.filter Char.isDigit)).length =
      (phone.toList.filter Char.isDigit).length := rfl
  refine ⟨fun hle => ?_, fun hgt => ?_⟩
  · simp only [cleanPhoneNumber]
    rw [if_neg hne, if_neg (by rw [hlen]; omega), if_neg (by rw [hlen]; omega)]
    simp [hplus]
  · simp only [cleanPhoneNumber]
    rw [if_neg hne, if_neg (by rw [hlen]; omega), if_pos (by rw [hlen]; omega)]

/-- Witness for the amended C2 at the concrete input `"+12"`. -/
theorem claim_C2_amended_witness :
    cleanPhoneNumber "+12" "9" = "+" ++ String.mk (("+12").toList.filter Char.isDigit) :=
  (claim_C2_amended "+12" "9" (by decide) (by decide)).1 (by decide)

/-- Claim C7: `fuzzyMatch` dispatches to Jaro-Winkler (default prefix scale
0.1) exactly when both strings are shorter than 10 characters, and to
Levenshtein similarity when either has length 10 or more. -/
theorem claim_C7 (a b : String) :
    (a.length < 10 ∧ b.length < 10 → fuzzyMatch a b = jaroWinklerSimilarity a b (1/10)) ∧
    (10 ≤ a.length ∨ 10 ≤ b.length → fuzzyMatch a b = levenshteinSimilarity a b) := by
  constructor
  · intro h
    unfold fuzzyMatch
    rw [if_pos h]
  · intro h
    unfold fuzzyMatch
    rw [if_neg (by rintro ⟨h1, h2⟩; rcases h with h | h <;> omega)]

/-- Witness for C7 on both branches at concrete inputs. -/
theorem claim_C7_witness :
    fuzzyMatch "abc" "abd" = jaroWinklerSimilarity "abc" "abd" (1/10) ∧
    fuzzyMatch "0123456789" "x" = levenshteinSimilarity "0123456789" "x" :=
  ⟨(claim_C7 "abc" "abd").1 (by decide), (claim_C7 "0123456789" "x").2 (by decide)⟩

/-- Claim C9: a non-empty input without any digit character is returned
completely unchanged by `cleanPhoneNumber`, even when it starts with `+`. -/
theorem claim_C9 (phone cc : String) (hne : phone ≠ "")
    (hnd : ∀ c ∈ phone.toList, c.isDigit = false) :
    cleanPhoneNumber phone cc = phone := by
  have hfil : phone.toList.filter Char.isDigit = [] := by
    rw [List.filter_eq_nil_iff]
    intro c hc
    simp [hnd c hc]
  simp only [cleanPhoneNumber, hfil]
  rw [if_neg hne]
  simp

/-- Witness for C9 at the digit-free `+`-prefixed input `"+"`. -/
theorem claim_C9_witness : cleanPhoneNumber "+" "1" = "+" :=
  claim_C9 "+" "1" (by decide) (by decide)

/-- Claim C10: `getNestedProperty` returns undefined whenever the path is
empty or the root is not a non-null non-array mapping; the guard precedes any
segment resolution, and the embedding is a total function (the source checks
`isObject` before every dereference, so no step can throw). -/
theorem claim_C10 (obj : Value) (path : String)
    (h : path = "" ∨ isObject obj = false) :
    getNestedProperty obj path = none := by
  unfold getNestedProperty
  rcases h with h | h <;> simp [h]

/-- Witness for C10 at a non-object root and a non-empty path. -/
theorem claim_C10_witness : getNestedProperty (.str "x") "a.b" = none :=
  claim_C10 (.str "x") "a.b" (Or.inr rfl)

/-- Helper: when some item's key-transformation result is not a valid object,
the `executeCleanObjectKeys` item loop raises, whatever the starting index. -/
theorem cleanKeysLoop_error (items : List Value) (fmt : CaseType)
    (h : ∃ v ∈ items, isObject (transformObjectKeys v fmt) = false) :
    ∀ i, ∃ e, cleanKeysLoop items fmt i = .error e := by
  induction items with
  | nil => simp at h
  | cons x xs ih =>
      intro i
      simp only [cleanKeysLoop]
      by_cases hx : isObject (transformObjectKeys x fmt) = true
      · rw [if_pos hx]
        have hxs : ∃ v ∈ xs, isObject (transformObjectKeys v fmt) = false := by
          rcases h with ⟨v, hv, hbad⟩
          rcases List.mem_cons.mp hv with rfl | hv2
          · rw [hbad] at hx; cases hx
          · exact ⟨v, hv2, hbad⟩
        obtain ⟨e, he⟩ := ih hxs (i + 1)
        rw [he]
        exact ⟨e, rfl⟩
      · rw [if_neg hx]
        exact ⟨_, rfl⟩

/-- Counterexample to C3: an empty parsed field list for the smart
capitalization (title-casing) operation is NOT a fatal configuration error —
the handler performs no such validation and returns the items unchanged,
producing output items instead of a raised failure. -/
theorem claim_C3_counterexample :
    parseFields "" = [] ∧
    executeSmartCapitalization [[("name", Value.str "jOhN")]] "" =
      .ok [[("name", Value.str "jOhN")]] :=
  ⟨rfl, rfl⟩

/-- Amended C3: an empty parsed field list for deduplication, a deduplication
threshold outside [0,1], and a key-transformation result that is not a valid
mapping are each fatal, surfaced immediately as a raised failure; an empty
parsed field list for smart capitalization is not an error — the items pass
through unchanged. -/
theorem claim_C3_amended :
    (∀ (items : List RecordV) (raw : String) (t : ℚ) (info : Bool),
        parseFields raw = [] →
        executeDeduplicateFuzzy items raw t info =
          .error "At least one field must be specified for duplicate checking") ∧
    (∀ (items : List RecordV) (raw : String) (t : ℚ) (info : Bool),
        parseFields raw ≠ [] → (t < 0 ∨ 1 < t) →
        executeDeduplicateFuzzy items raw t info =
          .error "Fuzzy threshold must be between 0.0 and 1.0") ∧
    (∀ (items : List Value) (fmt : CaseType),
        (∃ v ∈ items, isObject (transformObjectKeys v fmt) = false) →
        ∃ e, executeCleanObjectKeys items fmt = .error e) ∧
    (∀ (items : List RecordV) (raw : String),
        parseFields raw = [] →
        executeSmartCapitalization items raw = .ok items) := by
  refine ⟨?_, ?_, ?_, ?_⟩
  · intro items raw t info h
    simp [executeDeduplicateFuzzy, h]
  · intro items raw t info hne ht
    simp only [executeDeduplicateFuzzy]
    rw [if_neg (by simpa using hne),
      if_pos (by rcases ht with h | h; exact Or.inl h; exact Or.inr h)]
  · intro items fmt h
    exact cleanKeysLoop_error items fmt h 0
  · intro items raw h
    simp only [executeSmartCapitalization, h]
    rw [show capitalizeItem [] = id from rfl, List.map_id]

/-- Witness for the amended C3: each of the three fatal configuration errors
raised at a concrete input, and the non-error passthrough of smart
capitalization with an empty field list. -/
theorem claim_C3_amended_witness :
    executeDeduplicateFuzzy [] " , " (1/2) false =
      .error "At least one field must be specified for duplicate checking" ∧
    executeDeduplicateFuzzy [] "name" (3/2) false =
      .error "Fuzzy threshold must be between 0.0 and 1.0" ∧
    (∃ e, executeCleanObjectKeys [Value.str "hi"] .snake_case = .error e) ∧
    executeSmartCapitalization [[("name", Value.str "jOhN")]] "" =
      .ok [[("name", Value.str "jOhN")]] :=
  ⟨claim_C3_amended.1 [] " , " (1/2) false (by decide),
   claim_C3_amended.2.1 [] "name" (3/2) false (by decide) (by norm_num),
   claim_C3_amended.2.2.1 [Value.str "hi"] .snake_case
     ⟨Value.str "hi", List.mem_singleton.mpr rfl, rfl⟩,
   claim_C3_amended.2.2.2 [[("name", Value.str "jOhN")]] "" rfl⟩

/-- Helper: `Char.ofNat` round-trips on valid code points. -/
theorem char_ofNat_toNat (n : ℕ) (h : n.isValidChar) : (Char.ofNat n).toNat = n := by
  simp only [Char.ofNat, dif_pos h, Char.ofNatAux, Char.toNat, UInt32.toNat]
  simp [BitVec.toNat_ofNat]

/-- Helper: `Char.toLower` is idempotent. -/
theorem toLower_toLower (c : Char) : c.toLower.toLower = c.toLower := by
  unfold Char.toLower
  simp only []
  by_cases h : c.toNat ≥ 65 ∧ c.toNat ≤ 90
  · rw [if_pos h]
    have hval : (c.toNat + 32).isValidChar := by left; omega
    rw [if_neg (by rw [char_ofNat_toNat _ hval]; omega)]
  · rw [if_neg h, if_neg h]

/-- Helper: every chunk produced by `splitKeepWs` is either the empty string
or one of the character runs of the input. -/
theorem mem_splitKeepWs (cs : List Char) (g : String) (hg : g ∈ splitKeepWs cs) :
    g = "" ∨ ∃ r, r ∈ cs.splitBy (fun a b => a.isWhitespace == b.isWhitespace) ∧
      g = String.mk r := by
  simp only [splitKeepWs] at hg
  have base : ∀ g', g' ∈ (cs.splitBy (fun a b => a.isWhitespace == b.isWhitespace)).map
      (fun r => String.mk r) →
      g' = "" ∨ ∃ r, r ∈ cs.splitBy (fun a b => a.isWhitespace == b.isWhitespace) ∧
        g' = String.mk r := by
    intro g' hg'
    obtain ⟨r, hr, hmk⟩ := List.mem_map.mp hg'
    exact Or.inr ⟨r, hr, hmk.symm⟩
  split at hg
  · split at hg
    · rcases List.mem_append.mp hg with h | h
      · revert h
        split
        · intro h
          simp at h
          exact Or.inl h
        · split
          · intro h
            rcases List.mem_cons.mp h with h | h
            · exact Or.inl h
            · exact base _ h
          · intro h
            exact base _ h
      · simp at h
        exact Or.inl h
    · revert hg
      split
      · intro h
        simp at h
        exact Or.inl h
      · split
        · intro h
          rcases List.mem_cons.mp h with h | h
          · exact Or.inl h
          · exact base _ h
        · intro h
          exact base _ h
  · revert hg
    split
    · intro h
      simp at h
      exact Or.inl h
    · split
      · intro h
        rcases List.mem_cons.mp h with h | h
        · exact Or.inl h
        · exact base _ h
      · intro h
        exact base _ h

/-- Helper: the characters of every `splitKeepWs` chunk come from the input. -/
theorem splitKeepWs_chars (cs : List Char) (g : String) (hg : g ∈ splitKeepWs cs) :
    ∀ c ∈ g.toList, c ∈ cs := by
  intro c hc
  rcases mem_splitKeepWs cs g hg with rfl | ⟨r, hr, rfl⟩
  · simp at hc
  · have : c ∈ (cs.splitBy (fun a b => a.isWhitespace == b.isWhitespace)).flatten :=
      List.mem_flatten.mpr ⟨r, hr, hc⟩
    rwa [List.flatten_splitBy] at this

/-- Helper: on a token all of whose characters are lower-case-fixed (as every
token of the case-folded input is), the source's per-token transform agrees
with the specification's per-token rule. -/
theorem titleWord_eq_spec (word : String) (idx total : ℕ)
    (hfix : ∀ c ∈ word.toList, c.toLower = c) :
    titleWord word idx total = titleTokenSpec word idx total := by
  have hmk : String.mk word.toList = word := by
    cases word
    rfl
  have hmap : word.toList.map Char.toLower = word.toList := by
    conv_rhs => rw [← List.map_id' word.toList]
    exact List.map_congr_left hfix
  have hlow : jsToLower word = word := by
    show String.mk (word.toList.map Char.toLower) = word
    rw [hmap, hmk]
  unfold titleWord titleTokenSpec
  rw [hlow]
  by_cases h1 : word ≠ "" ∧ word.toList.all Char.isWhitespace
  · rw [if_pos h1, if_pos h1]
  · rw [if_neg h1, if_neg h1]
    by_cases h2 : word ∈ titleUppercaseExceptions
    · rw [if_pos h2, if_pos h2]
    · rw [if_neg h2, if_neg h2]
      by_cases h3 : ¬(idx = 0 ∨ idx = total - 1) ∧ word ∈ titleExceptions
      · rw [if_pos h3, if_pos h3]
      · rw [if_neg h3, if_neg h3]
        unfold capitalizeFirst
        cases hw : word.toList with
        | nil => rfl
        | cons c rest =>
            have hrest : ∀ d ∈ rest, d.toLower = d := by
              intro d hd
              exact hfix d (by rw [hw]; exact List.mem_cons_of_mem c hd)
            have h5 : (jsToLower (String.mk rest)).toList = rest := by
              show rest.map Char.toLower = rest
              conv_rhs => rw [← List.map_id' rest]
              exact List.map_congr_left hrest
            show String.mk (Char.toUpper c :: (jsToLower (String.mk rest)).toList) =
              String.mk (Char.toUpper c :: rest)
            rw [h5]

/-- Claim C8: `toTitleCase` case-folds, splits on whitespace preserving
delimiters, and applies the two per-token exception sets exactly as the
specification describes (`toTitleCase = titleCaseSpec`), and in particular
maps "jOhN dOE" to "John Doe", "the lord of the rings" to
"The Lord of the Rings", and "ibm ceo" to "IBM CEO". -/
theorem claim_C8 :
    (∀ s : String, toTitleCase s = titleCaseSpec s) ∧
    toTitleCase "jOhN dOE" = "John Doe" ∧
    toTitleCase "the lord of the rings" = "The Lord of the Rings" ∧
    toTitleCase "ibm ceo" = "IBM CEO" := by
  refine ⟨?_, by with_unfolding_all decide, by with_unfolding_all decide,
    by with_unfolding_all decide⟩
  intro s
  unfold toTitleCase titleCaseSpec
  by_cases hs : s = ""
  · rw [if_pos hs, if_pos hs]
  · rw [if_neg hs, if_neg hs]
    apply congrArg String.join
    apply List.map_congr_left
    intro p hp
    apply titleWord_eq_spec
    intro c hc
    have h2 : p.2 ∈ splitKeepWs (jsToLower s).toList := List.snd_mem_of_mem_enum hp
    have h3 : c ∈ (jsToLower s).toList := splitKeepWs_chars _ _ h2 c hc
    have h4 : c ∈ s.toList.map Char.toLower := h3
    obtain ⟨d, hd, rfl⟩ := List.mem_map.mp h4
    exact toLower_toLower d

/-- Helper: the field loop of the pair comparison accumulates the sum of the
contributing fields' scores and their count. -/
theorem pairScore_foldl (r1 r2 : RecordV) (fields : List String) (t0 : ℚ) (c0 : ℕ) :
    fields.foldl
      (fun (acc : ℚ × ℕ) field =>
        let value1 := fieldString r1 field
        let value2 := fieldString r2 field
        if value1 = "" ∧ value2 = "" then acc
        else (acc.1 + fuzzyMatch value1 value2, acc.2 + 1))
      (t0, c0) =
    (t0 + ((contributingFields fields r1 r2).map
        (fun f => fuzzyMatch (fieldString r1 f) (fieldString r2 f))).sum,
     c0 + (contributingFields fields r1 r2).length) := by
  induction fields generalizing t0 c0 with
  | nil => simp [contributingFields]
  | cons f rest ih =>
      simp only [List.foldl_cons]
      by_cases h : fieldString r1 f = "" ∧ fieldString r2 f = ""
      · rw [if_pos h]
        have hfil : contributingFields (f :: rest) r1 r2 = contributingFields rest r1 r2 := by
          simp [contributingFields, List.filter_cons, h]
        rw [hfil]
        exact ih t0 c0
      · rw [if_neg h]
        have hfil : contributingFields (f :: rest) r1 r2 =
            f :: contributingFields rest r1 r2 := by
          simp only [contributingFields, List.filter_cons]
          rw [if_pos (by simpa using not_and_or.mp h)]
        rw [hfil, ih]
        simp only [List.map_cons, List.sum_cons, List.length_cons, Prod.ext_iff]
        constructor
        · ring
        · omega

/-- Helper: the source's pair scoring equals the specification's average over
contributing fields (0 when none contribute). -/
theorem pairScore_eq_spec (fields : List String) (r1 r2 : RecordV) :
    pairScore fields r1 r2 = pairScoreSpec fields r1 r2 := by
  unfold pairScore pairScoreSpec
  rw [pairScore_foldl]
  simp only [zero_add]
  by_cases h : contributingFields fields r1 r2 = []
  · simp [h]
  · rw [if_pos (List.length_pos.mpr h), if_neg h]

/-- Helper: `j` is recorded as a duplicate by the inner loop exactly when it
is one of the scanned indices, not yet consumed, and its average similarity
to the keep record meets the threshold. -/
theorem innerLoop_dups_iff (items : List RecordV) (fields : List String) (t : ℚ) (i : ℕ)
    (js P : List ℕ) (j : ℕ) :
    j ∈ (innerLoop items fields t i js P).1 ↔
      j ∈ js ∧ j ∉ P ∧ t ≤ pairScore fields (items.getD i []) (items.getD j []) := by
  induction js generalizing P with
  | nil => simp [innerLoop]
  | cons k rest ih =>
      simp only [innerLoop]
      by_cases hk : k ∈ P
      · rw [if_pos hk, ih]
        constructor
        · rintro ⟨h1, h2, h3⟩
          exact ⟨List.mem_cons_of_mem _ h1, h2, h3⟩
        · rintro ⟨h1, h2, h3⟩
          rcases List.mem_cons.mp h1 with rfl | h1
          · exact absurd hk h2
          · exact ⟨h1, h2, h3⟩
      · rw [if_neg hk]
        by_cases hs : t ≤ pairScore fields (items.getD i []) (items.getD k [])
        · rw [if_pos hs]
          simp only [List.mem_cons]
          constructor
          · rintro (rfl | hj)
            · exact ⟨Or.inl rfl, hk, hs⟩
            · have h := (ih (P ++ [k])).mp hj
              refine ⟨Or.inr h.1, fun hP => h.2.1 (List.mem_append_left _ hP), h.2.2⟩
          · rintro ⟨h1, h2, h3⟩
            rcases h1 with rfl | h1
            · exact Or.inl rfl
            · by_cases hjk : j = k
              · exact Or.inl hjk
              · refine Or.inr ((ih (P ++ [k])).mpr ⟨h1, fun hm => ?_, h3⟩)
                rcases List.mem_append.mp hm with hm | hm
                · exact h2 hm
                · simp at hm
                  exact hjk hm
        · rw [if_neg hs, ih]
          constructor
          · rintro ⟨h1, h2, h3⟩
            exact ⟨List.mem_cons_of_mem _ h1, h2, h3⟩
          · rintro ⟨h1, h2, h3⟩
            rcases List.mem_cons.mp h1 with rfl | h1
            · exact absurd h3 hs
            · exact ⟨h1, h2, h3⟩

/-- Helper: after the inner loop, the consumed set is the incoming consumed
set plus exactly the recorded duplicates. -/
theorem innerLoop_processed_iff (items : List RecordV) (fields : List String) (t : ℚ)
    (i : ℕ) (js P : List ℕ) (j : ℕ) :
    j ∈ (innerLoop items fields t i js P).2.2 ↔
      j ∈ P ∨ j ∈ (innerLoop items fields t i js P).1 := by
  induction js generalizing P with
  | nil => simp [innerLoop]
  | cons k rest ih =>
      simp only [innerLoop]
      by_cases hk : k ∈ P
      · rw [if_pos hk]
        exact ih P
      · rw [if_neg hk]
        by_cases hs : t ≤ pairScore fields (items.getD i []) (items.getD k [])
        · rw [if_pos hs]
          simp only []
          rw [ih (P ++ [k])]
          constructor
          · rintro (h | h)
            · rcases List.mem_append.mp h with h | h
              · exact Or.inl h
              · simp at h
                subst h
                exact Or.inr (List.mem_cons_self _ _)
            · exact Or.inr (List.mem_cons_of_mem _ h)
          · rintro (h | h)
            · exact Or.inl (List.mem_append_left _ h)
            · rcases List.mem_cons.mp h with rfl | h
              · exact Or.inl (List.mem_append_right _ (by simp))
              · exact Or.inr h
        · rw [if_neg hs]
          exact ih P

/-- Claim C4: the pair scoring of `findFuzzyDuplicates` skips fields where
both string-coerced values are empty, averages `fuzzyMatch` over the
contributing fields (0 when none contribute), and the inner loop records `j`
as a duplicate of `i` — consuming it for the rest of the outer loop — exactly
when that average meets the threshold (for `j` among the scanned, not yet
consumed indices). -/
theorem claim_C4 :
    (∀ (fields : List String) (r1 r2 : RecordV),
        pairScore fields r1 r2 = pairScoreSpec fields r1 r2) ∧
    (∀ (items : List RecordV) (fields : List String) (t : ℚ) (i : ℕ)
        (js P : List ℕ) (j : ℕ),
        j ∈ (innerLoop items fields t i js P).1 ↔
          j ∈ js ∧ j ∉ P ∧ t ≤ pairScore fields (items.getD i []) (items.getD j [])) ∧
    (∀ (items : List RecordV) (fields : List String) (t : ℚ) (i : ℕ)
        (js P : List ℕ) (j : ℕ),
        j ∈ (innerLoop items fields t i js P).2.2 ↔
          j ∈ P ∨ j ∈ (innerLoop items fields t i js P).1) :=
  ⟨pairScore_eq_spec, innerLoop_dups_iff, innerLoop_processed_iff⟩

/-- Helper: every emitted group's keep index is one of the scanned indices
and was not consumed when its iteration started. -/
theorem findLoop_keep (items : List RecordV) (fields : List String) (t : ℚ)
    (idxs : List ℕ) (P : List ℕ) :
    ∀ g ∈ findLoop items fields t idxs P, g.keepIndex ∈ idxs ∧ g.keepIndex ∉ P := by
  induction idxs generalizing P with
  | nil => simp [findLoop]
  | cons i rest ih =>
      intro g hg
      simp only [findLoop] at hg
      by_cases hi : i ∈ P
      · rw [if_pos hi] at hg
        have h := ih P g hg
        exact ⟨List.mem_cons_of_mem _ h.1, h.2⟩
      · rw [if_neg hi] at hg
        by_cases hne : (innerLoop items fields t i rest P).1 ≠ []
        · rw [if_pos hne] at hg
          rcases List.mem_cons.mp hg with rfl | hg
          · exact ⟨List.mem_cons_self _ _, hi⟩
          · have h := ih (innerLoop items fields t i rest P).2.2 g hg
            refine ⟨List.mem_cons_of_mem _ h.1, fun hP => h.2 ?_⟩
            exact (innerLoop_processed_iff items fields t i rest P _).mpr (Or.inl hP)
        · rw [if_neg hne] at hg
          have h := ih (innerLoop items fields t i rest P).2.2 g hg
          refine ⟨List.mem_cons_of_mem _ h.1, fun hP => h.2 ?_⟩
          exact (innerLoop_processed_iff items fields t i rest P _).mpr (Or.inl hP)

/-- Helper: every recorded duplicate index is one of the scanned indices. -/
theorem findLoop_dups_mem (items : List RecordV) (fields : List String) (t : ℚ)
    (idxs : List ℕ) (P : List ℕ) :
    ∀ g ∈ findLoop items fields t idxs P, ∀ d ∈ g.duplicateIndices, d ∈ idxs := by
  induction idxs generalizing P with
  | nil => simp [findLoop]
  | cons i rest ih =>
      intro g hg d hd
      simp only [findLoop] at hg
      by_cases hi : i ∈ P
      · rw [if_pos hi] at hg
        exact List.mem_cons_of_mem _ (ih P g hg d hd)
      · rw [if_neg hi] at hg
        by_cases hne : (innerLoop items fields t i rest P).1 ≠ []
        · rw [if_pos hne] at hg
          rcases List.mem_cons.mp hg with rfl | hg
          · have h := ((innerLoop_dups_iff items fields t i rest P d).mp hd).1
            exact List.mem_cons_of_mem _ h
          · exact List.mem_cons_of_mem _
              (ih (innerLoop items fields t i rest P).2.2 g hg d hd)
        · rw [if_neg hne] at hg
          exact List.mem_cons_of_mem _
            (ih (innerLoop items fields t i rest P).2.2 g hg d hd)

/-- Helper: over a strictly increasing index list, no group's keep index ever
occurs among any group's duplicate indices. -/
theorem findLoop_keep_not_dup (items : List RecordV) (fields : List String) (t : ℚ)
    (idxs : List ℕ) (P : List ℕ) (hsort : idxs.Pairwise (· < ·)) :
    ∀ g ∈ findLoop items fields t idxs P, ∀ g' ∈ findLoop items fields t idxs P,
    ∀ d ∈ g'.duplicateIndices, g.keepIndex ≠ d := by
  induction idxs generalizing P with
  | nil => simp [findLoop]
  | cons i rest ih =>
      have hlt : ∀ x ∈ rest, i < x := (List.pairwise_cons.mp hsort).1
      have hsort2 : rest.Pairwise (· < ·) := (List.pairwise_cons.mp hsort).2
      intro g hg g' hg' d hd
      simp only [findLoop] at hg hg'
      by_cases hi : i ∈ P
      · rw [if_pos hi] at hg hg'
        exact ih P hsort2 g hg g' hg' d hd
      · rw [if_neg hi] at hg hg'
        by_cases hne : (innerLoop items fields t i rest P).1 ≠ []
        · rw [if_pos hne] at hg hg'
          rcases List.mem_cons.mp hg with rfl | hg
          · rcases List.mem_cons.mp hg' with rfl | hg'
            · have hdr : d ∈ rest :=
                ((innerLoop_dups_iff items fields t i rest P d).mp hd).1
              exact Nat.ne_of_lt (hlt d hdr)
            · have hdr : d ∈ rest :=
                findLoop_dups_mem items fields t rest _ g' hg' d hd
              exact Nat.ne_of_lt (hlt d hdr)
          · have hk := findLoop_keep items fields t rest _ g hg
            rcases List.mem_cons.mp hg' with rfl | hg'
            · intro hEq
              apply hk.2
              refine (innerLoop_processed_iff items fields t i rest P _).mpr (Or.inr ?_)
              rw [hEq]
              exact hd
            · exact ih (innerLoop items fields t i rest P).2.2 hsort2 g hg g' hg' d hd
        · rw [if_neg hne] at hg hg'
          exact ih (innerLoop items fields t i rest P).2.2 hsort2 g hg g' hg' d hd

/-- Claim C5: the surviving records of `deduplicateFuzzy` are a sublist of the
input (hence keep their original relative order), and an index recorded as a
duplicate in any group never appears as the keep index of any group. -/
theorem claim_C5 (items : List RecordV) (fields : List String) (t : ℚ) :
    List.Sublist (deduplicateFuzzy items fields t).deduplicated items ∧
    ∀ g ∈ (deduplicateFuzzy items fields t).duplicateGroups,
    ∀ g' ∈ (deduplicateFuzzy items fields t).duplicateGroups,
    ∀ d ∈ g'.duplicateIndices, g.keepIndex ≠ d := by
  constructor
  · show List.Sublist ((items.enum.filter _).map (fun p => p.2)) items
    have h1 := (List.filter_sublist (l := items.enum)
      (p := fun p => p.1 ∉ ((findFuzzyDuplicates items fields t).flatMap
        (fun g => g.duplicateIndices)).dedup))
    have h2 := h1.map (fun p : ℕ × RecordV => p.2)
    have h3 : items.enum.map (fun p : ℕ × RecordV => p.2) = items :=
      List.enum_map_snd items
    rwa [h3] at h2
  · show ∀ g ∈ findLoop items fields t (List.range items.length) [], _
    exact findLoop_keep_not_dup items fields t (List.range items.length) []
      (List.pairwise_lt_range _)

/-- Witness for C5 at the concrete four-record input: the surviving records
form a sublist, and the single emitted group's keep index 1 differs from its
recorded duplicate 2. -/
theorem claim_C5_witness :
    List.Sublist (deduplicateFuzzy dedupExItems dedupExFields (1/2)).deduplicated
      dedupExItems ∧
    (⟨1, [2, 3], [1/2, 1/2]⟩ : DuplicateGroup).keepIndex ≠ 2 :=
  ⟨(claim_C5 dedupExItems dedupExFields (1/2)).1,
   (claim_C5 dedupExItems dedupExFields (1/2)).2 ⟨1, [2, 3], [1/2, 1/2]⟩
     (by with_unfolding_all decide) ⟨1, [2, 3], [1/2, 1/2]⟩
     (by with_unfolding_all decide) 2 (by decide)⟩

end DataCleaner

namespace DataCleaner

theorem levIdx_symm (l s : List Char) : ∀ i j, levIdx l s i j = levIdx s l j i
  | 0, 0 => by simp [levIdx]
  | 0, _ + 1 => by simp [levIdx]
  | _ + 1, 0 => by simp [levIdx]
  | i + 1, j + 1 => by
      have h1 := levIdx_symm l s (i + 1) j
      have h2 := levIdx_symm l s i (j + 1)
      have h3 := levIdx_symm l s i j
      simp only [levIdx]
      rw [h1, h2, h3]
      have hc : (if l.getD i ' ' = s.getD j ' ' then (0:ℕ) else 1) =
          (if s.getD j ' ' = l.getD i ' ' then (0:ℕ) else 1) := by
        by_cases h : l.getD i ' ' = s.getD j ' '
        · rw [if_pos h, if_pos h.symm]
        · rw [if_neg h, if_neg (fun hh => h hh.symm)]
      rw [hc]
      exact min_left_comm _ _ _

theorem levGo_spec (l s : List Char) (i : ℕ) :
    ∀ (k j0 : ℕ), j0 + k = s.length →
    levGo (l.getD i ' ') (s.drop j0)
      ((List.range' (j0 + 1) k).map (levIdx l s i))
      (levIdx l s i j0) (levIdx l s (i + 1) j0)
    = (List.range' (j0 + 1) k).map (levIdx l s (i + 1)) := by
  intro k
  induction k with
  | zero =>
      intro j0 hj
      have : s.drop j0 = [] := by
        rw [List.drop_eq_nil_iff]
        omega
      simp [this, levGo]
  | succ k ih =>
      intro j0 hj
      have hjlt : j0 < s.length := by omega
      rw [List.drop_eq_getElem_cons hjlt, List.range'_succ]
      simp only [List.map_cons]
      show (let cost : ℕ := if l.getD i ' ' = s[j0] then 0 else 1
            let cur := min (levIdx l s (i + 1) j0 + 1)
              (min (levIdx l s i (j0 + 1) + 1) (levIdx l s i j0 + cost))
            cur :: levGo (l.getD i ' ') (s.drop (j0 + 1))
              ((List.range' (j0 + 1 + 1) k).map (levIdx l s i))
              (levIdx l s i (j0 + 1)) cur) = _
      have hgd : s.getD j0 ' ' = s[j0] := List.getD_eq_getElem s ' ' hjlt
      have hcur : min (levIdx l s (i + 1) j0 + 1)
          (min (levIdx l s i (j0 + 1) + 1)
            (levIdx l s i j0 + if l.getD i ' ' = s[j0] then 0 else 1)) =
          levIdx l s (i + 1) (j0 + 1) := by
        simp only [levIdx, hgd]
      simp only []
      rw [hcur]
      have := ih (j0 + 1) (by omega)
      rw [show j0 + 1 + 1 = j0 + 2 from rfl] at this ⊢
      rw [this]

end DataCleaner
namespace DataCleaner

theorem levRowsAux_spec (l s : List Char) :
    ∀ k, levRowsAux l s k = (List.range' 0 (s.length + 1)).map (levIdx l s k) := by
  intro k
  induction k with
  | zero =>
      show List.range (s.length + 1) = _
      rw [List.range_eq_range']
      conv_lhs => rw [← List.map_id' (List.range' 0 (s.length + 1))]
      apply List.map_congr_left
      intro a _
      simp [levIdx]
  | succ k ih =>
      show levNextRow s (l.getD k ' ') (k + 1) (levRowsAux l s k) = _
      rw [ih, List.range'_succ]
      simp only [List.map_cons, levNextRow]
      have h1 : levIdx l s (k + 1) 0 = k + 1 := by simp [levIdx]
      have hgo := levGo_spec l s k s.length 0 (by omega)
      rw [List.drop_zero] at hgo
      conv_lhs => rw [show (k + 1 : ℕ) = levIdx l s (k + 1) 0 from h1.symm]
      congr 1

end DataCleaner
namespace DataCleaner

theorem levDP_eq (l s : List Char) : levDP l s = levIdx l s l.length s.length := by
  unfold levDP
  rw [levRowsAux_spec]
  have hlt : s.length < ((List.range' 0 (s.length + 1)).map (levIdx l s l.length)).length := by
    simp
  rw [List.getD_eq_getElem _ _ hlt, List.getElem_map, List.getElem_range']
  simp

theorem levDP_symm (a b : List Char) : levDP a b = levDP b a := by
  rw [levDP_eq, levDP_eq, levIdx_symm]


end DataCleaner
namespace DataCleaner

theorem string_length_zero {s : String} (h : s.length = 0) : s = "" := by
  cases s with
  | mk data =>
      cases data with
      | nil => rfl
      | cons c cs => simp [String.length] at h

theorem levenshteinDistance_symm (a b : String) :
    levenshteinDistance a b = levenshteinDistance b a := by
  unfold levenshteinDistance
  by_cases h : jsTrim (jsToLower a) = jsTrim (jsToLower b)
  · rw [if_pos h, if_pos h.symm]
  · rw [if_neg h,
      if_neg (fun hh : jsTrim (jsToLower b) = jsTrim (jsToLower a) => h hh.symm)]
    by_cases h1 : (jsTrim (jsToLower a)).length = 0
    · have h2 : (jsTrim (jsToLower b)).length ≠ 0 := by
        intro h2
        exact h (by rw [string_length_zero h1, string_length_zero h2])
      rw [if_pos h1, if_neg h2, if_pos h1]
    · by_cases h2 : (jsTrim (jsToLower b)).length = 0
      · rw [if_neg h1, if_pos h2, if_pos h2]
      · rw [if_neg h1, if_neg h2, if_neg h2, if_neg h1]
        by_cases hle : (jsTrim (jsToLower a)).length ≤ (jsTrim (jsToLower b)).length
        · rw [if_pos hle]
          by_cases hle2 : (jsTrim (jsToLower b)).length ≤ (jsTrim (jsToLower a)).length
          · rw [if_pos hle2]
            exact levDP_symm _ _
          · rw [if_neg hle2]
        · rw [if_neg hle, if_pos (by omega)]

theorem levenshteinSimilarity_symm (a b : String) :
    levenshteinSimilarity a b = levenshteinSimilarity b a := by
  unfold levenshteinSimilarity
  by_cases h1 : a = "" ∧ b = ""
  · rw [if_pos h1, if_pos ⟨h1.2, h1.1⟩]
  · rw [if_neg h1, if_neg (fun hh : b = "" ∧ a = "" => h1 ⟨hh.2, hh.1⟩)]
    by_cases h2 : a = "" ∨ b = ""
    · rw [if_pos h2, if_pos (Or.symm h2)]
    · rw [if_neg h2, if_neg (fun hh : b = "" ∨ a = "" => h2 (Or.symm hh))]
      rw [levenshteinDistance_symm, Nat.max_comm]

theorem levenshteinDistance_refl (a : String) : levenshteinDistance a a = 0 := by
  unfold levenshteinDistance
  rw [if_pos rfl]

theorem levenshteinSimilarity_refl (a : String) (h : a ≠ "") :
    levenshteinSimilarity a a = 1 := by
  unfold levenshteinSimilarity
  rw [if_neg (fun hh => h hh.1), if_neg (by rintro (hh | hh) <;> exact h hh)]
  rw [levenshteinDistance_refl]
  simp

end DataCleaner
namespace DataCleaner

theorem mergeSt_nil_right (w : ℕ) (I : List ℕ) : mergeSt w I [] = ([], []) := by
  cases I <;> simp [mergeSt]

theorem mergeSt_swap (w : ℕ) : ∀ (A B : List ℕ),
    (mergeSt w B A).1 = (mergeSt w A B).1.map (fun p => (p.2, p.1))
  | [], B => by rw [mergeSt_nil_right]; simp [mergeSt]
  | _ :: _, [] => by rw [mergeSt_nil_right]; simp [mergeSt]
  | a :: A, b :: B => by
      by_cases h1 : b + w < a
      · have h2 : ¬(a + w < b) := by omega
        rw [show mergeSt w (a :: A) (b :: B) = mergeSt w (a :: A) B by
              rw [mergeSt]; rw [if_pos h1]]
        rw [show mergeSt w (b :: B) (a :: A) = mergeSt w B (a :: A) by
              rw [mergeSt]; rw [if_neg (by omega), if_pos h1]]
        exact mergeSt_swap w (a :: A) B
      · by_cases h2 : a + w < b
        · rw [show mergeSt w (a :: A) (b :: B) = mergeSt w A (b :: B) by
                rw [mergeSt]; rw [if_neg h1, if_pos h2]]
          rw [show mergeSt w (b :: B) (a :: A) = mergeSt w (b :: B) A by
                rw [mergeSt]; rw [if_pos h2]]
          exact mergeSt_swap w A (b :: B)
        · rw [show mergeSt w (a :: A) (b :: B) =
                ((a, b) :: (mergeSt w A B).1, (mergeSt w A B).2) by
              rw [mergeSt]; rw [if_neg h1, if_neg h2]]
          rw [show mergeSt w (b :: B) (a :: A) =
                ((b, a) :: (mergeSt w B A).1, (mergeSt w B A).2) by
              rw [mergeSt]; rw [if_neg h2, if_neg h1]]
          simp only [List.map_cons]
          rw [mergeSt_swap w A B]
termination_by A B => A.length + B.length

end DataCleaner
namespace DataCleaner

theorem mergeSt_append (w : ℕ) : ∀ (A B J : List ℕ),
    mergeSt w (A ++ B) J =
      ((mergeSt w A J).1 ++ (mergeSt w B (mergeSt w A J).2).1,
       (mergeSt w B (mergeSt w A J).2).2)
  | [], B, J => by simp [mergeSt]
  | a :: A, _B, [] => by
      simp [mergeSt_nil_right]
  | a :: A, B, j :: J => by
      show mergeSt w (a :: (A ++ B)) (j :: J) = _
      by_cases h1 : j + w < a
      · rw [show mergeSt w (a :: (A ++ B)) (j :: J) = mergeSt w (a :: (A ++ B)) J by
              rw [mergeSt]; rw [if_pos h1]]
        rw [show mergeSt w (a :: A) (j :: J) = mergeSt w (a :: A) J by
              rw [mergeSt]; rw [if_pos h1]]
        exact mergeSt_append w (a :: A) B J
      · by_cases h2 : a + w < j
        · rw [show mergeSt w (a :: (A ++ B)) (j :: J) = mergeSt w (A ++ B) (j :: J) by
                rw [mergeSt]; rw [if_neg h1, if_pos h2]]
          rw [show mergeSt w (a :: A) (j :: J) = mergeSt w A (j :: J) by
                rw [mergeSt]; rw [if_neg h1, if_pos h2]]
          exact mergeSt_append w A B (j :: J)
        · rw [show mergeSt w (a :: (A ++ B)) (j :: J) =
                ((a, j) :: (mergeSt w (A ++ B) J).1, (mergeSt w (A ++ B) J).2) by
              rw [mergeSt]; rw [if_neg h1, if_neg h2]]
          rw [show mergeSt w (a :: A) (j :: J) =
                ((a, j) :: (mergeSt w A J).1, (mergeSt w A J).2) by
              rw [mergeSt]; rw [if_neg h1, if_neg h2]]
          rw [mergeSt_append w A B J]
          simp
termination_by A _B J => A.length + J.length

theorem mergeSt_single (w n : ℕ) : ∀ (R : List ℕ),
    mergeSt w [n] R =
      match R.dropWhile (fun j => decide (j + w < n)) with
      | [] => ([], [])
      | j0 :: rest => if n + w < j0 then ([], j0 :: rest) else ([(n, j0)], rest)
  | [] => by simp [mergeSt]
  | j :: R => by
      by_cases h1 : j + w < n
      · rw [show mergeSt w [n] (j :: R) = mergeSt w [n] R by
              rw [mergeSt]; rw [if_pos h1]]
        rw [List.dropWhile_cons_of_pos (by simpa using h1)]
        exact mergeSt_single w n R
      · rw [List.dropWhile_cons_of_neg (by simpa using h1)]
        by_cases h2 : n + w < j
        · rw [show mergeSt w [n] (j :: R) = ([], j :: R) by
                rw [mergeSt]; rw [if_neg h1, if_pos h2]; rw [mergeSt]]
          simp [h2]
        · rw [show mergeSt w [n] (j :: R) = ([(n, j)], R) by
                rw [mergeSt]; rw [if_neg h1, if_neg h2]; simp [mergeSt]]
          simp [h2]

theorem mergeSt_suffix (w : ℕ) : ∀ (I J : List ℕ), (mergeSt w I J).2.IsSuffix J
  | [], J => by simp [mergeSt]
  | _ :: _, [] => by rw [mergeSt_nil_right]
  | i :: I, j :: J => by
      by_cases h1 : j + w < i
      · rw [show mergeSt w (i :: I) (j :: J) = mergeSt w (i :: I) J by
              rw [mergeSt]; rw [if_pos h1]]
        exact (mergeSt_suffix w (i :: I) J).trans (List.suffix_cons j J)
      · by_cases h2 : i + w < j
        · rw [show mergeSt w (i :: I) (j :: J) = mergeSt w I (j :: J) by
                rw [mergeSt]; rw [if_neg h1, if_pos h2]]
          exact mergeSt_suffix w I (j :: J)
        · rw [show mergeSt w (i :: I) (j :: J) =
                ((i, j) :: (mergeSt w I J).1, (mergeSt w I J).2) by
              rw [mergeSt]; rw [if_neg h1, if_neg h2]]
          exact (mergeSt_suffix w I J).trans (List.suffix_cons j J)
termination_by I J => I.length + J.length

theorem mergeSt_partition (w : ℕ) : ∀ (I J : List ℕ),
    ∃ Jc, J = Jc ++ (mergeSt w I J).2 ∧
      (∀ j ∈ ((mergeSt w I J).1.map Prod.snd), j ∈ Jc) ∧
      (∀ j ∈ Jc, j ∈ ((mergeSt w I J).1.map Prod.snd) ∨ ∃ i ∈ I, j + w < i)
  | [], J => by
      refine ⟨[], by simp [mergeSt], by simp [mergeSt], by simp⟩
  | i :: I, [] => by
      rw [mergeSt_nil_right]
      exact ⟨[], by simp, by simp, by simp⟩
  | i :: I, j :: J => by
      by_cases h1 : j + w < i
      · rw [show mergeSt w (i :: I) (j :: J) = mergeSt w (i :: I) J by
              rw [mergeSt]; rw [if_pos h1]]
        obtain ⟨Jc, hJ, hsnd, hJc⟩ := mergeSt_partition w (i :: I) J
        refine ⟨j :: Jc, by rw [List.cons_append]; exact congrArg (List.cons j) hJ,
          fun x hx => List.mem_cons_of_mem _ (hsnd x hx), ?_⟩
        intro x hx
        rcases List.mem_cons.mp hx with rfl | hx
        · exact Or.inr ⟨i, List.mem_cons_self _ _, h1⟩
        · exact hJc x hx
      · by_cases h2 : i + w < j
        · rw [show mergeSt w (i :: I) (j :: J) = mergeSt w I (j :: J) by
                rw [mergeSt]; rw [if_neg h1, if_pos h2]]
          obtain ⟨Jc, hJ, hsnd, hJc⟩ := mergeSt_partition w I (j :: J)
          refine ⟨Jc, hJ, hsnd, fun x hx => ?_⟩
          rcases hJc x hx with h | ⟨i', hi', hlt⟩
          · exact Or.inl h
          · exact Or.inr ⟨i', List.mem_cons_of_mem _ hi', hlt⟩
        · rw [show mergeSt w (i :: I) (j :: J) =
                ((i, j) :: (mergeSt w I J).1, (mergeSt w I J).2) by
              rw [mergeSt]; rw [if_neg h1, if_neg h2]]
          obtain ⟨Jc, hJ, hsnd, hJc⟩ := mergeSt_partition w I J
          refine ⟨j :: Jc, by rw [List.cons_append]; exact congrArg (List.cons j) hJ, ?_, ?_⟩
          · intro x hx
            simp only [List.map_cons, List.mem_cons] at hx
            rcases hx with rfl | hx
            · exact List.mem_cons_self _ _
            · exact List.mem_cons_of_mem _ (hsnd x hx)
          · intro x hx
            rcases List.mem_cons.mp hx with rfl | hx
            · exact Or.inl (by simp)
            · rcases hJc x hx with h | ⟨i', hi', hlt⟩
              · exact Or.inl (by simp only [List.map_cons, List.mem_cons]; exact Or.inr h)
              · exact Or.inr ⟨i', List.mem_cons_of_mem _ hi', hlt⟩
termination_by I J => I.length + J.length

theorem mergeSt_bounds (w : ℕ) : ∀ (I J : List ℕ), ∀ p ∈ (mergeSt w I J).1,
    p.1 ∈ I ∧ p.2 ∈ J
  | [], J => by simp [mergeSt]
  | _ :: _, [] => by rw [mergeSt_nil_right]; simp
  | i :: I, j :: J => by
      by_cases h1 : j + w < i
      · rw [show mergeSt w (i :: I) (j :: J) = mergeSt w (i :: I) J by
              rw [mergeSt]; rw [if_pos h1]]
        intro p hp
        have := mergeSt_bounds w (i :: I) J p hp
        exact ⟨this.1, List.mem_cons_of_mem _ this.2⟩
      · by_cases h2 : i + w < j
        · rw [show mergeSt w (i :: I) (j :: J) = mergeSt w I (j :: J) by
                rw [mergeSt]; rw [if_neg h1, if_pos h2]]
          intro p hp
          have := mergeSt_bounds w I (j :: J) p hp
          exact ⟨List.mem_cons_of_mem _ this.1, this.2⟩
        · rw [show mergeSt w (i :: I) (j :: J) =
                ((i, j) :: (mergeSt w I J).1, (mergeSt w I J).2) by
              rw [mergeSt]; rw [if_neg h1, if_neg h2]]
          intro p hp
          rcases List.mem_cons.mp hp with rfl | hp
          · exact ⟨List.mem_cons_self _ _, List.mem_cons_self _ _⟩
          · have := mergeSt_bounds w I J p hp
            exact ⟨List.mem_cons_of_mem _ this.1, List.mem_cons_of_mem _ this.2⟩
termination_by I J => I.length + J.length

theorem mem_posOf (c : Char) (s : List Char) (x : ℕ) :
    x ∈ posOf c s ↔ x < s.length ∧ s.getD x ' ' = c := by
  simp [posOf, List.mem_filter, List.mem_range]

theorem posOf_sorted (c : Char) (s : List Char) : (posOf c s).Pairwise (· < ·) :=
  List.Pairwise.filter _ (List.pairwise_lt_range _)

theorem filter_lt_succ (l : List ℕ) (hl : l.Pairwise (· < ·)) (n : ℕ) :
    l.filter (fun x => x < n + 1) =
      l.filter (fun x => x < n) ++ (if n ∈ l then [n] else []) := by
  induction l with
  | nil => simp
  | cons x xs ih =>
      have hx : ∀ y ∈ xs, x < y := (List.pairwise_cons.mp hl).1
      have hxs : xs.Pairwise (· < ·) := (List.pairwise_cons.mp hl).2
      rcases Nat.lt_trichotomy x n with h | rfl | h
      · rw [List.filter_cons_of_pos (by simpa using Nat.lt_succ_of_lt h),
          List.filter_cons_of_pos (by simpa using h)]
        rw [ih hxs]
        have hcond : (if n ∈ x :: xs then [n] else ([] : List ℕ)) =
            if n ∈ xs then [n] else [] := by
          by_cases hn : n ∈ xs
          · rw [if_pos hn, if_pos (List.mem_cons_of_mem _ hn)]
          · rw [if_neg hn, if_neg (fun hc => by
              rcases List.mem_cons.mp hc with rfl | hc
              · omega
              · exact hn hc)]
        rw [hcond]
        simp
      · rw [List.filter_cons_of_pos (by simp), List.filter_cons_of_neg (by simp)]
        have h1 : xs.filter (fun y => y < x + 1) = [] := by
          rw [List.filter_eq_nil_iff]
          intro y hy
          have := hx y hy
          simpa using (by omega : ¬ y < x + 1)
        have h2 : xs.filter (fun y => y < x) = [] := by
          rw [List.filter_eq_nil_iff]
          intro y hy
          have := hx y hy
          simpa using (by omega : ¬ y < x)
        rw [h1, h2, if_pos (List.mem_cons_self _ _)]
        rfl
      · rw [List.filter_cons_of_neg (by simpa using (by omega : ¬ x < n + 1)),
          List.filter_cons_of_neg (by simpa using (by omega : ¬ x < n))]
        rw [ih hxs]
        have hcond : (if n ∈ x :: xs then [n] else ([] : List ℕ)) =
            if n ∈ xs then [n] else [] := by
          by_cases hn : n ∈ xs
          · rw [if_pos hn, if_pos (List.mem_cons_of_mem _ hn)]
          · rw [if_neg hn, if_neg (fun hc => by
              rcases List.mem_cons.mp hc with rfl | hc
              · omega
              · exact hn hc)]
        rw [hcond]

end DataCleaner
namespace DataCleaner

theorem getD_replicate_false (k i : ℕ) : (List.replicate k false).getD i false = false := by
  rw [List.getD_eq_getElem?_getD]
  rcases lt_or_ge i k with h | h
  · rw [List.getElem?_eq_getElem (by simpa using h)]
    simp [List.getElem_replicate]
  · rw [List.getElem?_eq_none (by simpa using h)]
    rfl

theorem getD_default_eq {l : List Bool} {j : ℕ} (h : j < l.length) (a b : Bool) :
    l.getD j a = l.getD j b := by
  rw [List.getD_eq_getElem _ _ h, List.getD_eq_getElem _ _ h]

theorem find?_range'_some (p : ℕ → Bool) : ∀ (len a x : ℕ),
    ((List.range' a len).find? p = some x ↔
      p x = true ∧ a ≤ x ∧ x < a + len ∧ ∀ y, a ≤ y → y < x → p y = false)
  | 0, a, x => by
      constructor
      · intro h
        simp at h
      · rintro ⟨_, h1, h2, _⟩
        omega
  | len + 1, a, x => by
      rw [List.range'_succ]
      by_cases hpa : p a = true
      · rw [List.find?_cons_of_pos _ hpa]
        constructor
        · rintro h
          injection h with h
          subst h
          exact ⟨hpa, le_refl a, by omega, fun y h1 h2 => absurd h1 (by omega)⟩
        · rintro ⟨hx, hax, hlt, hmin⟩
          rcases Nat.eq_or_lt_of_le hax with rfl | hax2
          · rfl
          · have := hmin a (le_refl a) hax2
            rw [hpa] at this
            cases this
      · have hpa2 : p a = false := by
          cases h : p a
          · rfl
          · exact absurd h hpa
        rw [List.find?_cons_of_neg _ (by simp [hpa2])]
        rw [find?_range'_some p len (a + 1) x]
        constructor
        · rintro ⟨hx, hax, hlt, hmin⟩
          refine ⟨hx, by omega, by omega, fun y h1 h2 => ?_⟩
          rcases Nat.eq_or_lt_of_le h1 with rfl | h1'
          · exact hpa2
          · exact hmin y (by omega) h2
        · rintro ⟨hx, hax, hlt, hmin⟩
          have hax2 : a + 1 ≤ x := by
            rcases Nat.eq_or_lt_of_le hax with rfl | h
            · rw [hpa2] at hx
              cases hx
            · omega
          exact ⟨hx, hax2, by omega, fun y h1 h2 => hmin y (by omega) h2⟩

theorem mergeSt_single_nil (w n : ℕ) (R : List ℕ)
    (h : R.dropWhile (fun j => decide (j + w < n)) = []) :
    mergeSt w [n] R = ([], []) := by
  rw [mergeSt_single, h]

theorem mergeSt_single_cons (w n j0 : ℕ) (rest2 : List ℕ) (R : List ℕ)
    (h : R.dropWhile (fun j => decide (j + w < n)) = j0 :: rest2) :
    mergeSt w [n] R = if n + w < j0 then ([], j0 :: rest2) else ([(n, j0)], rest2) := by
  rw [mergeSt_single, h]

theorem dropWhile_head_false {p : ℕ → Bool} {l : List ℕ} {x : ℕ} {xs : List ℕ}
    (h : l.dropWhile p = x :: xs) : p x = false := by
  induction l with
  | nil => simp at h
  | cons a l ih =>
      rw [List.dropWhile_cons] at h
      split at h
      · exact ih h
      · next hpa =>
          injection h with h1 _
          subst h1
          cases hh : p a
          · rfl
          · exact absurd hh (by simpa using hpa)

theorem scanJ_step (s1 s2 : List Char) (w n : ℕ) (_hn : n < s1.length)
    (m2 : List Bool) (hlen : m2.length = s2.length)
    (hm2 : ∀ j, m2.getD j false =
        decide (j ∈ (cPairs s1 s2 w n (s2.getD j ' ')).map Prod.snd)) :
    scanJ (s1.getD n ' ') s2 m2 (n - w) (min (n + w + 1) s2.length) =
      ((mergeSt w [n] (cRem s1 s2 w n (s1.getD n ' '))).1.head?.map Prod.snd) := by
  set c := s1.getD n ' ' with hc
  set J := posOf c s2 with hJ
  set I := (posOf c s1).filter (fun i => i < n) with hI
  obtain ⟨Jc, hJeq, hsnd, hJc⟩ := mergeSt_partition w I J
  have hIlt : ∀ i' ∈ I, i' < n := by
    intro i' hi'
    have := List.mem_filter.mp hi'
    simpa using this.2
  have hJsorted : J.Pairwise (· < ·) := posOf_sorted c s2
  have hJnodup : J.Nodup := hJsorted.imp Nat.ne_of_lt
  have hRsuffix : (cRem s1 s2 w n c).IsSuffix J := mergeSt_suffix w I J
  have hRsorted : (cRem s1 s2 w n c).Pairwise (· < ·) :=
    hJsorted.sublist hRsuffix.sublist
  have hRdisj : ∀ j ∈ cRem s1 s2 w n c, j ∉ (cPairs s1 s2 w n c).map Prod.snd := by
    intro j hjR hjsnd
    have hjJc : j ∈ Jc := hsnd j hjsnd
    have : J.Nodup := hJnodup
    rw [hJeq] at this
    exact (List.disjoint_of_nodup_append this) hjJc hjR
  -- characterize the scan predicate on the scanned range
  have hpred : ∀ j, n - w ≤ j → j < min (n + w + 1) s2.length →
      ((!m2.getD j true && (s2.getD j ' ' == c)) = true ↔ j ∈ cRem s1 s2 w n c) := by
    intro j hj1 hj2
    have hjl2 : j < s2.length := by omega
    have hdef : m2.getD j true = m2.getD j false := getD_default_eq (by omega) _ _
    constructor
    · intro hp
      simp only [Bool.and_eq_true, Bool.not_eq_true', beq_iff_eq] at hp
      obtain ⟨hm2j, hcj⟩ := hp
      rw [hdef, hm2 j] at hm2j
      have hnotmem : j ∉ (cPairs s1 s2 w n (s2.getD j ' ')).map Prod.snd := by
        intro hmem
        rw [decide_eq_true hmem] at hm2j
        cases hm2j
      rw [hcj] at hnotmem
      have hjJ : j ∈ J := (mem_posOf c s2 j).mpr ⟨hjl2, hcj⟩
      rw [hJeq] at hjJ
      rcases List.mem_append.mp hjJ with hjc | hjr
      · rcases hJc j hjc with hin | ⟨i', hi', hlt⟩
        · exact absurd hin hnotmem
        · have := hIlt i' hi'
          omega
      · exact hjr
    · intro hjR
      have hjJ : j ∈ J := hRsuffix.sublist.mem hjR
      have hprop := (mem_posOf c s2 j).mp hjJ
      simp only [Bool.and_eq_true, Bool.not_eq_true', beq_iff_eq]
      refine ⟨?_, hprop.2⟩
      rw [hdef, hm2 j, hprop.2]
      exact decide_eq_false (hRdisj j hjR)
  -- split R via dropWhile
  have hRsplit := List.takeWhile_append_dropWhile
    (p := fun j => decide (j + w < n)) (l := cRem s1 s2 w n c)
  rw [scanJ]
  cases hpost : (cRem s1 s2 w n c).dropWhile (fun j => decide (j + w < n)) with
  | nil =>
      rw [mergeSt_single_nil w n _ hpost]
      simp only [Option.map_none', List.head?_nil]
      rw [List.find?_eq_none]
      intro j hjrange
      have hjr := List.mem_range'_1.mp hjrange
      intro hp
      have hjR := (hpred j (by omega) (by omega)).mp hp
      rw [← hRsplit, hpost, List.append_nil] at hjR
      have := List.mem_takeWhile_imp hjR
      simp at this
      omega
  | cons j0 rest2 =>
      have hj0R : j0 ∈ cRem s1 s2 w n c := by
        rw [← hRsplit, hpost]
        exact List.mem_append_right _ (List.mem_cons_self _ _)
      have hj0w : ¬ (j0 + w < n) := by
        have := dropWhile_head_false hpost
        simpa using this
      have hj0l2 : j0 < s2.length :=
        ((mem_posOf c s2 j0).mp (hRsuffix.sublist.mem hj0R)).1
      have hpostsorted : (j0 :: rest2).Pairwise (· < ·) := by
        rw [← hpost]
        exact hRsorted.sublist (List.dropWhile_sublist _)
      have hj0min : ∀ y ∈ j0 :: rest2, j0 ≤ y := by
        intro y hy
        rcases List.mem_cons.mp hy with rfl | hy
        · exact le_refl _
        · exact le_of_lt ((List.pairwise_cons.mp hpostsorted).1 y hy)
      have hmemR : ∀ y ∈ cRem s1 s2 w n c, y + w < n ∨ y ∈ j0 :: rest2 := by
        intro y hy
        rw [← hRsplit, hpost] at hy
        rcases List.mem_append.mp hy with hy | hy
        · have := List.mem_takeWhile_imp hy
          simp at this
          exact Or.inl this
        · exact Or.inr hy
      by_cases hfar : n + w < j0
      · rw [mergeSt_single_cons w n j0 rest2 _ hpost, if_pos hfar]
        simp only [Option.map_none', List.head?_nil]
        rw [List.find?_eq_none]
        intro j hjrange
        have hjr := List.mem_range'_1.mp hjrange
        intro hp
        have hjR := (hpred j (by omega) (by omega)).mp hp
        rcases hmemR j hjR with h | h
        · omega
        · have := hj0min j h
          omega
      · rw [mergeSt_single_cons w n j0 rest2 _ hpost, if_neg hfar]
        simp only [List.head?_cons, Option.map_some']
        rw [find?_range'_some]
        refine ⟨(hpred j0 (by omega) (by omega)).mpr hj0R, by omega, by omega, ?_⟩
        intro y h1 h2
        by_cases hpy : (!m2.getD y true && (s2.getD y ' ' == c)) = true
        · have hyR := (hpred y (by omega) (by omega)).mp hpy
          rcases hmemR y hyR with h | h
          · omega
          · have := hj0min y h
            omega
        · cases h : (!m2.getD y true && (s2.getD y ' ' == c))
          · rfl
          · exact absurd h hpy

end DataCleaner
namespace DataCleaner

theorem cPairs_zero (s1 s2 : List Char) (w : ℕ) (c : Char) :
    cPairs s1 s2 w 0 c = [] := by
  unfold cPairs
  have : (posOf c s1).filter (fun i => i < 0) = [] := by
    rw [List.filter_eq_nil_iff]
    intro x _
    simp
  rw [this]
  simp [mergeSt]

theorem cPairs_succ_ne (s1 s2 : List Char) (w n : ℕ) (c' : Char)
    (h : n ∉ posOf c' s1) :
    cPairs s1 s2 w (n + 1) c' = cPairs s1 s2 w n c' ∧
    cRem s1 s2 w (n + 1) c' = cRem s1 s2 w n c' := by
  have hf := filter_lt_succ (posOf c' s1) (posOf_sorted c' s1) n
  rw [if_neg h, List.append_nil] at hf
  unfold cPairs cRem
  rw [hf]
  exact ⟨rfl, rfl⟩

theorem cPairs_succ_eq (s1 s2 : List Char) (w n : ℕ) (c : Char)
    (h : n ∈ posOf c s1) :
    cPairs s1 s2 w (n + 1) c =
      cPairs s1 s2 w n c ++ (mergeSt w [n] (cRem s1 s2 w n c)).1 ∧
    cRem s1 s2 w (n + 1) c = (mergeSt w [n] (cRem s1 s2 w n c)).2 := by
  have hf := filter_lt_succ (posOf c s1) (posOf_sorted c s1) n
  rw [if_pos h] at hf
  unfold cPairs cRem
  rw [hf, mergeSt_append]
  exact ⟨rfl, rfl⟩

theorem jaroMatchAux_spec (s1 s2 : List Char) (w : ℕ) :
    ∀ n, n ≤ s1.length →
    (jaroMatchAux s1 s2 w n).1.length = s1.length ∧
    (jaroMatchAux s1 s2 w n).2.length = s2.length ∧
    (∀ i, (jaroMatchAux s1 s2 w n).1.getD i false =
        decide (i ∈ (cPairs s1 s2 w n (s1.getD i ' ')).map Prod.fst)) ∧
    (∀ j, (jaroMatchAux s1 s2 w n).2.getD j false =
        decide (j ∈ (cPairs s1 s2 w n (s2.getD j ' ')).map Prod.snd)) := by
  intro n
  induction n with
  | zero =>
      intro _
      refine ⟨by simp [jaroMatchAux], by simp [jaroMatchAux], ?_, ?_⟩
      · intro i
        show (List.replicate s1.length false).getD i false = _
        rw [getD_replicate_false, cPairs_zero]
        simp
      · intro j
        show (List.replicate s2.length false).getD j false = _
        rw [getD_replicate_false, cPairs_zero]
        simp
  | succ n ih =>
      intro hsn
      have hn : n < s1.length := by omega
      obtain ⟨hl1, hl2, hm1, hm2⟩ := ih (by omega)
      have hnpos : n ∈ posOf (s1.getD n ' ') s1 :=
        (mem_posOf _ s1 n).mpr ⟨hn, rfl⟩
      have hstep := scanJ_step s1 s2 w n hn (jaroMatchAux s1 s2 w n).2 hl2 hm2
      obtain ⟨hPc, hRc⟩ := cPairs_succ_eq s1 s2 w n (s1.getD n ' ') hnpos
      have hAllP : ∀ c', cPairs s1 s2 w (n + 1) c' =
          cPairs s1 s2 w n c' ++
            (if c' = s1.getD n ' ' then (mergeSt w [n] (cRem s1 s2 w n (s1.getD n ' '))).1
             else []) := by
        intro c'
        by_cases hcc : c' = s1.getD n ' '
        · rw [if_pos hcc, hcc]
          exact hPc
        · rw [if_neg hcc, List.append_nil]
          exact (cPairs_succ_ne s1 s2 w n c' (fun hmem =>
            hcc ((mem_posOf c' s1 n).mp hmem).2.symm)).1
      have hunfold : jaroMatchAux s1 s2 w (n + 1) =
          (match scanJ (s1.getD n ' ') s2 (jaroMatchAux s1 s2 w n).2 (n - w)
              (min (n + w + 1) s2.length) with
           | some j => ((jaroMatchAux s1 s2 w n).1.set n true,
               (jaroMatchAux s1 s2 w n).2.set j true)
           | none => jaroMatchAux s1 s2 w n) := rfl
      cases hcase : (mergeSt w [n] (cRem s1 s2 w n (s1.getD n ' '))).1 with
      | nil =>
          have hscan : scanJ (s1.getD n ' ') s2 (jaroMatchAux s1 s2 w n).2 (n - w)
              (min (n + w + 1) s2.length) = none := by
            rw [hstep, hcase]
            rfl
          rw [hunfold, hscan]
          refine ⟨hl1, hl2, ?_, ?_⟩
          · intro i
            rw [hm1 i, hAllP]
            by_cases hcc : s1.getD i ' ' = s1.getD n ' '
            · rw [if_pos hcc, hcase, List.append_nil]
            · rw [if_neg hcc, List.append_nil]
          · intro j
            rw [hm2 j, hAllP]
            by_cases hcc : s2.getD j ' ' = s1.getD n ' '
            · rw [if_pos hcc, hcase, List.append_nil]
            · rw [if_neg hcc, List.append_nil]
      | cons p rest =>
          have hpair : p.1 = n := by
            have := mergeSt_bounds w [n] (cRem s1 s2 w n (s1.getD n ' ')) p
              (by rw [hcase]; exact List.mem_cons_self _ _)
            simpa using this.1
          have hrest : rest = [] := by
            rcases hpost : (cRem s1 s2 w n (s1.getD n ' ')).dropWhile
                (fun j => decide (j + w < n)) with _ | ⟨j0, rest2⟩
            · rw [mergeSt_single_nil w n _ hpost] at hcase
              simp at hcase
            · rw [mergeSt_single_cons w n j0 rest2 _ hpost] at hcase
              by_cases hfar : n + w < j0
              · rw [if_pos hfar] at hcase
                simp at hcase
              · rw [if_neg hfar] at hcase
                simp at hcase
                exact hcase.2
          have hj0R : p.2 ∈ cRem s1 s2 w n (s1.getD n ' ') := by
            have := mergeSt_bounds w [n] (cRem s1 s2 w n (s1.getD n ' ')) p
              (by rw [hcase]; exact List.mem_cons_self _ _)
            exact this.2
          have hj0J : p.2 ∈ posOf (s1.getD n ' ') s2 :=
            (mergeSt_suffix w _ _).sublist.mem hj0R
          have hj0l2 : p.2 < s2.length := ((mem_posOf _ s2 p.2).mp hj0J).1
          have hj0c : s2.getD p.2 ' ' = s1.getD n ' ' := ((mem_posOf _ s2 p.2).mp hj0J).2
          have hscan : scanJ (s1.getD n ' ') s2 (jaroMatchAux s1 s2 w n).2 (n - w)
              (min (n + w + 1) s2.length) = some p.2 := by
            rw [hstep, hcase]
            rfl
          rw [hunfold, hscan]
          refine ⟨by simpa using hl1, by simpa using hl2, ?_, ?_⟩
          · intro i
            by_cases hin : i = n
            · subst hin
              rw [List.getD_eq_getElem?_getD, List.getElem?_set_self (by omega),
                Option.getD_some]
              rw [hAllP, if_pos rfl, hcase]
              have hmem : i ∈ ((cPairs s1 s2 w i (s1.getD i ' ')) ++ p :: rest).map
                  Prod.fst := by
                rw [List.map_append, List.mem_append, List.map_cons, hpair]
                exact Or.inr (List.mem_cons_self _ _)
              rw [decide_eq_true hmem]
            · rw [List.getD_eq_getElem?_getD, List.getElem?_set_ne (fun hh => hin hh.symm),
                ← List.getD_eq_getElem?_getD, hm1 i, hAllP]
              by_cases hcc : s1.getD i ' ' = s1.getD n ' '
              · rw [if_pos hcc, hcase, hrest]
                apply decide_eq_decide.mpr
                rw [List.map_append, List.mem_append]
                constructor
                · exact Or.inl
                · rintro (h | h)
                  · exact h
                  · rw [List.map_cons, hpair] at h
                    rcases List.mem_cons.mp h with rfl | h
                    · exact absurd rfl hin
                    · simp at h
              · rw [if_neg hcc, List.append_nil]
          · intro j
            by_cases hjn : j = p.2
            · subst hjn
              rw [List.getD_eq_getElem?_getD, List.getElem?_set_self (by omega),
                Option.getD_some]
              rw [hj0c, hAllP, if_pos rfl, hcase, hrest]
              have hmem : p.2 ∈ ((cPairs s1 s2 w n (s1.getD n ' ')) ++ [p]).map
                  Prod.snd := by
                rw [List.map_append, List.mem_append, List.map_cons]
                exact Or.inr (List.mem_cons_self _ _)
              rw [decide_eq_true hmem]
            · rw [List.getD_eq_getElem?_getD, List.getElem?_set_ne (fun hh => hjn hh.symm),
                ← List.getD_eq_getElem?_getD, hm2 j, hAllP]
              by_cases hcc : s2.getD j ' ' = s1.getD n ' '
              · rw [if_pos hcc, hcase, hrest]
                apply decide_eq_decide.mpr
                rw [List.map_append, List.mem_append]
                constructor
                · exact Or.inl
                · rintro (h | h)
                  · exact h
                  · rw [List.map_cons] at h
                    rcases List.mem_cons.mp h with rfl | h
                    · exact absurd rfl hjn
                    · simp at h
              · rw [if_neg hcc, List.append_nil]

end DataCleaner
namespace DataCleaner

theorem posOf_filter_full (c : Char) (s : List Char) :
    (posOf c s).filter (fun i => i < s.length) = posOf c s := by
  apply List.filter_eq_self.mpr
  intro x hx
  simpa using ((mem_posOf c s x).mp hx).1

theorem cPairs_full (s1 s2 : List Char) (w : ℕ) (c : Char) :
    cPairs s1 s2 w s1.length c = (mergeSt w (posOf c s1) (posOf c s2)).1 := by
  unfold cPairs
  rw [posOf_filter_full]

theorem count_true_replicate_false (k : ℕ) :
    (List.replicate k false).count true = 0 := by
  rw [List.count_eq_zero]
  intro h
  have := List.eq_of_mem_replicate h
  cases this

theorem count_set_true : ∀ (l : List Bool) (i : ℕ), i < l.length →
    l.getD i false = false →
    (l.set i true).count true = l.count true + 1
  | [], i, hi, _ => absurd hi (by simp)
  | a :: l, 0, _, h => by
      simp only [List.getD_cons_zero] at h
      subst h
      simp [List.count_cons]
  | a :: l, i + 1, hi, h => by
      simp only [List.getD_cons_succ] at h
      show (a :: l.set i true).count true = (a :: l).count true + 1
      rw [List.count_cons, List.count_cons,
        count_set_true l i (by simpa using hi) h]
      omega

theorem jaroMatchAux_count (s1 s2 : List Char) (w : ℕ) :
    ∀ n, n ≤ s1.length →
    (jaroMatchAux s1 s2 w n).1.count true = (jaroMatchAux s1 s2 w n).2.count true := by
  intro n
  induction n with
  | zero =>
      intro _
      show (List.replicate s1.length false).count true =
        (List.replicate s2.length false).count true
      rw [count_true_replicate_false, count_true_replicate_false]
  | succ n ih =>
      intro hsn
      have hn : n < s1.length := by omega
      obtain ⟨hl1, hl2, hm1, hm2⟩ := jaroMatchAux_spec s1 s2 w n (by omega)
      have hm1n : (jaroMatchAux s1 s2 w n).1.getD n false = false := by
        rw [hm1 n]
        apply decide_eq_false
        intro hmem
        obtain ⟨p, hp, hpn⟩ := List.mem_map.mp hmem
        unfold cPairs at hp
        have hb := mergeSt_bounds w _ _ p hp
        have h2 := List.mem_filter.mp hb.1
        rw [hpn] at h2
        simp at h2
      have hunfold : jaroMatchAux s1 s2 w (n + 1) =
          (match scanJ (s1.getD n ' ') s2 (jaroMatchAux s1 s2 w n).2 (n - w)
              (min (n + w + 1) s2.length) with
           | some j => ((jaroMatchAux s1 s2 w n).1.set n true,
               (jaroMatchAux s1 s2 w n).2.set j true)
           | none => jaroMatchAux s1 s2 w n) := rfl
      cases hscan : scanJ (s1.getD n ' ') s2 (jaroMatchAux s1 s2 w n).2 (n - w)
          (min (n + w + 1) s2.length) with
      | none =>
          rw [hunfold, hscan]
          exact ih (by omega)
      | some j =>
          have hjfind := hscan
          rw [scanJ] at hjfind
          have hjmem := List.mem_of_find?_eq_some hjfind
          have hjpred := List.find?_some hjfind
          have hjr := List.mem_range'_1.mp hjmem
          have hjlt : j < s2.length := by omega
          have hm2j : (jaroMatchAux s1 s2 w n).2.getD j false = false := by
            simp only [Bool.and_eq_true, Bool.not_eq_true'] at hjpred
            rw [getD_default_eq (by omega) false true]
            exact hjpred.1
          rw [hunfold, hscan]
          show ((jaroMatchAux s1 s2 w n).1.set n true).count true =
            ((jaroMatchAux s1 s2 w n).2.set j true).count true
          rw [count_set_true _ n (by omega) hm1n,
            count_set_true _ j (by omega) hm2j, ih (by omega)]

theorem jaroMatches_swap (s1 s2 : List Char) (w : ℕ) :
    (jaroMatches s2 s1 w).1 = (jaroMatches s1 s2 w).2 ∧
    (jaroMatches s2 s1 w).2 = (jaroMatches s1 s2 w).1 := by
  unfold jaroMatches
  obtain ⟨hl1, hl2, hm1, hm2⟩ := jaroMatchAux_spec s1 s2 w s1.length (le_refl _)
  obtain ⟨hl1', hl2', hm1', hm2'⟩ := jaroMatchAux_spec s2 s1 w s2.length (le_refl _)
  have hswapfun : (Prod.fst ∘ fun p : ℕ × ℕ => (p.2, p.1)) = Prod.snd := rfl
  have hswapfun2 : (Prod.snd ∘ fun p : ℕ × ℕ => (p.2, p.1)) = Prod.fst := rfl
  constructor
  · apply List.ext_getElem (by rw [hl1', hl2])
    intro i h1 h2
    rw [← List.getD_eq_getElem _ false h1, ← List.getD_eq_getElem _ false h2]
    rw [hm1' i, hm2 i]
    apply decide_eq_decide.mpr
    rw [cPairs_full, cPairs_full,
      mergeSt_swap w (posOf (s2.getD i ' ') s1) (posOf (s2.getD i ' ') s2),
      List.map_map, hswapfun]
  · apply List.ext_getElem (by rw [hl2', hl1])
    intro j h1 h2
    rw [← List.getD_eq_getElem _ false h1, ← List.getD_eq_getElem _ false h2]
    rw [hm2' j, hm1 j]
    apply decide_eq_decide.mpr
    rw [cPairs_full, cPairs_full,
      mergeSt_swap w (posOf (s1.getD j ' ') s1) (posOf (s1.getD j ' ') s2),
      List.map_map, hswapfun2]

theorem mismatchCount_comm : ∀ (a b : List Char), mismatchCount a b = mismatchCount b a
  | [], [] => rfl
  | [], _ :: _ => rfl
  | _ :: _, [] => rfl
  | x :: xs, y :: ys => by
      show (if x = y then 0 else 1) + mismatchCount xs ys =
        (if y = x then 0 else 1) + mismatchCount ys xs
      rw [mismatchCount_comm xs ys]
      congr 1
      by_cases h : x = y
      · rw [if_pos h, if_pos h.symm]
      · rw [if_neg h, if_neg (fun hh => h hh.symm)]

theorem prefixLen_comm : ∀ (b : ℕ) (x y : List Char), prefixLen b x y = prefixLen b y x := by
  intro b
  induction b with
  | zero =>
      intro x y
      cases x <;> cases y <;> simp [prefixLen]
  | succ b ih =>
      intro x y
      cases x with
      | nil => cases y <;> simp [prefixLen]
      | cons a as =>
          cases y with
          | nil => simp [prefixLen]
          | cons c cs =>
              show (if a = c then prefixLen b as cs + 1 else 0) =
                (if c = a then prefixLen b cs as + 1 else 0)
              by_cases h : a = c
              · rw [if_pos h, if_pos h.symm, ih as cs]
              · rw [if_neg h, if_neg (fun hh => h hh.symm)]

theorem jaroSimilarity_symm (a b : String) :
    jaroSimilarity b a = jaroSimilarity a b := by
  simp only [jaroSimilarity]
  set A := (jsTrim (jsToLower a)).toList with hA
  set B := (jsTrim (jsToLower b)).toList with hB
  by_cases hab : A = B
  · rw [if_pos hab, if_pos hab.symm]
  rw [if_neg hab, if_neg (fun h => hab h.symm)]
  by_cases hz : A.length = 0 ∨ B.length = 0
  · rw [if_pos (Or.symm hz), if_pos hz]
  rw [if_neg (fun h => hz (Or.symm h)), if_neg hz]
  have hw : matchWindowSize B.length A.length = matchWindowSize A.length B.length := by
    unfold matchWindowSize
    rw [Nat.max_comm]
  rw [hw]
  obtain ⟨h1, h2⟩ := jaroMatches_swap A B (matchWindowSize A.length B.length)
  rw [h1, h2]
  have hcnt : (jaroMatches A B (matchWindowSize A.length B.length)).1.count true =
      (jaroMatches A B (matchWindowSize A.length B.length)).2.count true :=
    jaroMatchAux_count A B (matchWindowSize A.length B.length) A.length (le_refl _)
  rw [hcnt]
  by_cases hm : (jaroMatches A B (matchWindowSize A.length B.length)).2.count true = 0
  · rw [if_pos hm, if_pos hm]
  rw [if_neg hm, if_neg hm]
  rw [mismatchCount_comm]
  ring

theorem jaroWinklerSimilarity_symm (a b : String) (p : ℚ) :
    jaroWinklerSimilarity b a p = jaroWinklerSimilarity a b p := by
  simp only [jaroWinklerSimilarity]
  rw [jaroSimilarity_symm a b]
  by_cases h : jaroSimilarity a b = 0
  · rw [if_pos h, if_pos h]
  rw [if_neg h, if_neg h]
  rw [min_comm ((jsTrim (jsToLower b)).toList.length) ((jsTrim (jsToLower a)).toList.length),
    prefixLen_comm]

theorem fuzzyMatch_symm (a b : String) : fuzzyMatch b a = fuzzyMatch a b := by
  simp only [fuzzyMatch]
  by_cases h : a.length < 10 ∧ b.length < 10
  · rw [if_pos ⟨h.2, h.1⟩, if_pos h, jaroWinklerSimilarity_symm]
  · rw [if_neg (fun hh => h ⟨hh.2, hh.1⟩), if_neg h, levenshteinSimilarity_symm]

theorem jaroSimilarity_refl (a : String) : jaroSimilarity a a = 1 := by
  simp only [jaroSimilarity]
  rw [if_pos trivial]

theorem jaroWinklerSimilarity_refl (a : String) (p : ℚ) :
    jaroWinklerSimilarity a a p = 1 := by
  simp only [jaroWinklerSimilarity]
  rw [jaroSimilarity_refl]
  rw [if_neg one_ne_zero]
  ring

theorem fuzzyMatch_refl (a : String) (h : a ≠ "") : fuzzyMatch a a = 1 := by
  simp only [fuzzyMatch]
  by_cases hl : a.length < 10 ∧ a.length < 10
  · rw [if_pos hl, jaroWinklerSimilarity_refl]
  · rw [if_neg hl]
    exact levenshteinSimilarity_refl a h

end DataCleaner
namespace DataCleaner

/-- C6: every similarity function of utils.ts — `levenshteinSimilarity`,
`jaroSimilarity`, `jaroWinklerSimilarity` (for any prefix scale), and the
dispatching `fuzzyMatch` — is symmetric in its two string arguments, and each
returns exactly 1 on any non-empty string paired with itself. -/
theorem claim_C6 :
    (∀ a b : String, levenshteinSimilarity a b = levenshteinSimilarity b a) ∧
    (∀ a b : String, jaroSimilarity a b = jaroSimilarity b a) ∧
    (∀ (a b : String) (p : ℚ), jaroWinklerSimilarity a b p = jaroWinklerSimilarity b a p) ∧
    (∀ a b : String, fuzzyMatch a b = fuzzyMatch b a) ∧
    (∀ a : String, a ≠ "" → levenshteinSimilarity a a = 1) ∧
    (∀ a : String, a ≠ "" → jaroSimilarity a a = 1) ∧
    (∀ (a : String) (p : ℚ), a ≠ "" → jaroWinklerSimilarity a a p = 1) ∧
    (∀ a : String, a ≠ "" → fuzzyMatch a a = 1) :=
  ⟨levenshteinSimilarity_symm,
   fun a b => jaroSimilarity_symm b a,
   fun a b p => jaroWinklerSimilarity_symm b a p,
   fun a b => fuzzyMatch_symm b a,
   levenshteinSimilarity_refl,
   fun a _ => jaroSimilarity_refl a,
   fun a p _ => jaroWinklerSimilarity_refl a p,
   fuzzyMatch_refl⟩

/-- Witness for C6: the reflexivity statements instantiated at the concrete
non-empty string "ab" (and prefix scale 1/10), with the hypothesis discharged
by computation. -/
theorem claim_C6_witness :
    ("ab" : String) ≠ "" ∧
    levenshteinSimilarity "ab" "ab" = 1 ∧
    jaroSimilarity "ab" "ab" = 1 ∧
    jaroWinklerSimilarity "ab" "ab" (1 / 10) = 1 ∧
    fuzzyMatch "ab" "ab" = 1 :=
  ⟨by decide,
   claim_C6.2.2.2.2.1 "ab" (by decide),
   claim_C6.2.2.2.2.2.1 "ab" (by decide),
   claim_C6.2.2.2.2.2.2.1 "ab" (1 / 10) (by decide),
   claim_C6.2.2.2.2.2.2.2 "ab" (by decide)⟩

end DataCleaner
